import Mathlib

/-!
Verification of the quickopds feed generator (`__init__.py`).

Python strings are modelled as `List Char` (`Str`); Python dictionaries
holding per-stem accumulators are modelled as total functions `Str → _`
together with an explicit insertion-order key list, and the nested
`dict`/text tree built by `make_tree` is modelled by the inductive `DItem`.
-/

abbrev Str := List Char

/-- Python string comparison (`a < b`): lexicographic by code point,
with a proper prefix smaller than the longer string. -/
def strLt : Str → Str → Bool
  | [], [] => false
  | [], _ :: _ => true
  | _ :: _, [] => false
  | a :: as, b :: bs =>
    if a.toNat < b.toNat then true
    else if b.toNat < a.toNat then false
    else strLt as bs

/-- Python `max(a, b)` on two strings: returns `b` iff `a < b`. -/
def pmax (a b : Str) : Str := if strLt a b then b else a

/-- The decimal digit character for `n % 10`. -/
def digitChar (n : Nat) : Char := Char.ofNat (48 + n % 10)

/-- Zero-padded fixed-width decimal rendering (exactly `w` digits,
the value taken modulo `10 ^ w`). -/
def padNum : Nat → Nat → Str
  | 0, _ => []
  | w + 1, n => padNum w (n / 10) ++ [digitChar n]

/-- Gregorian leap-year test. -/
def isLeap (y : Nat) : Bool := (y % 4 == 0 && y % 100 != 0) || y % 400 == 0

/-- Number of days in year `y`. -/
def daysInYear (y : Nat) : Nat := if isLeap y then 366 else 365

/-- Walk forward from year `y`, consuming whole years from the day
count `d`; `fuel ≥ d` guarantees enough steps.  Returns the year
and the remaining day-of-year (0-based). -/
def yearAux : Nat → Nat → Nat → Nat × Nat
  | 0, y, d => (y, d)
  | fuel + 1, y, d =>
    if d < daysInYear y then (y, d) else yearAux fuel (y + 1) (d - daysInYear y)

/-- Year and 0-based day-of-year for a count of days since 1970-01-01. -/
def yearFromDays (d : Nat) : Nat × Nat := yearAux d 1970 d

/-- The lengths of the twelve months of year `y`. -/
def monthLengths (y : Nat) : List Nat :=
  [31, if isLeap y then 29 else 28, 31, 30, 31, 30, 31, 31, 30, 31, 30, 31]

/-- Walk the month lengths, consuming whole months from the 0-based
day-of-year; returns the month (starting at `m`) and 0-based day-of-month. -/
def monthAux : Nat → List Nat → Nat → Nat × Nat
  | m, [], d => (m, d)
  | m, len :: rest, d => if d < len then (m, d) else monthAux (m + 1) rest (d - len)

/-- The tuple `(year, month, day, hour, minute, second)` in UTC for an epoch-second
count, as computed by `datetime.fromtimestamp(sec, UTC)`. -/
def civil (sec : Nat) : Nat × Nat × Nat × Nat × Nat × Nat :=
  let days := sec / 86400
  let tod := sec % 86400
  let (y, doy) := yearFromDays days
  let (m, d0) := monthAux 1 (monthLengths y) doy
  (y, m, d0 + 1, tod / 3600, tod % 3600 / 60, tod % 60)

/-- The 19-character `YYYY-MM-DDTHH:MM:SS` core of an ISO-8601 rendering
(grouped right-associatively so that common prefixes peel off). -/
def isoCore (t : Nat × Nat × Nat × Nat × Nat × Nat) : Str :=
  padNum 4 t.1 ++ (['-'] ++ (padNum 2 t.2.1 ++ (['-'] ++ (padNum 2 t.2.2.1 ++ (['T']
    ++ (padNum 2 t.2.2.2.1 ++ ([':'] ++ (padNum 2 t.2.2.2.2.1 ++ ([':']
    ++ padNum 2 t.2.2.2.2.2)))))))))

/-- Model of `timestamp` (`__init__.py` lines 115–121): render the UTC
modification time `datetime.fromtimestamp(mtime, UTC).isoformat()` with the
trailing `+00:00` replaced by `Z`.  The mtime is split into whole seconds
`sec` and microseconds `usec`; `isoformat` omits the fractional part exactly
when the microsecond field is zero. -/
def timestamp (sec usec : Nat) : Str :=
  isoCore (civil sec) ++ ((if usec = 0 then [] else '.' :: padNum 6 usec) ++ ['Z'])

/-- Python `name.endswith(e)`. -/
def endsWith (name e : Str) : Bool := name.drop (name.length - e.length) == e

/-- A format descriptor: the value attached to a suffix in `FORMATS`.
The optional `"title"` key, the optional `CHILDREN` list of description
strings, the `"type"` media type, and the optional `"rel"` link relation. -/
structure Format where
  ftitle : Option Str
  fchildren : Option (List Str)
  ftype : Str
  frel : Option Str
deriving DecidableEq, Repr

/-- URI for the opds acquisition link relation. -/
def ACQUISITION : Str := "http://opds-spec.org/acquisition".toList

/-- URI for the opds image link relation. -/
def IMAGE : Str := "http://opds-spec.org/image".toList

/-- The `FORMATS` registry (`__init__.py` lines 23–89) in Python dict
insertion order, ending with the `""` unknown sentinel. -/
def FORMATS : List (Str × Format) :=
  [ ("_advanced.epub".toList,
      ⟨some "Advanced epub".toList,
       some ["An advanced format that uses the latest technology not yet fully supported by most ereaders".toList],
       "application/epub+zip".toList, some ACQUISITION⟩),
    (".kepub.epub".toList,
      ⟨some "kepub".toList, some ["Kobo devices and apps".toList],
       "application/kepub+zip".toList, some ACQUISITION⟩),
    (".epub".toList,
      ⟨some "Compatible epub".toList,
       some ["All devices and apps except Kindles and Kobos".toList],
       "application/epub+zip".toList, some ACQUISITION⟩),
    (".azw3".toList,
      ⟨some "azw3".toList, some ["Kindle devices and apps".toList],
       "application/x-mobipocket-ebook".toList, some ACQUISITION⟩),
    ("_cropped.pdf".toList,
      ⟨some "Cropped pdf".toList,
       some ["Fixed page layout cropped tightly to content".toList],
       "application/pdf".toList, some ACQUISITION⟩),
    (".pdf".toList,
      ⟨some "pdf".toList, some ["Fixed page layout".toList],
       "application/pdf".toList, some ACQUISITION⟩),
    (".html".toList,
      ⟨some "html".toList, some ["Read directly in the browser".toList],
       "text/html".toList, some ACQUISITION⟩),
    (".txt".toList,
      ⟨some "txt".toList, some ["Plain text with no formatting".toList],
       "text/plain".toList, some ACQUISITION⟩),
    (".jpg".toList, ⟨none, none, "image/jpeg".toList, some IMAGE⟩),
    (".png".toList, ⟨none, none, "image/png".toList, some IMAGE⟩),
    (".gif".toList, ⟨none, none, "image/gif".toList, some IMAGE⟩),
    (".htm".toList,
      ⟨some "html".toList, some ["Read directly in the browser".toList],
       "text/html".toList, some ACQUISITION⟩),
    (".jpeg".toList, ⟨none, none, "image/jpeg".toList, some IMAGE⟩),
    ([], ⟨none, none, "unknown".toList, none⟩) ]

/-- The classification loop of `make_tree` (lines 201–205): the first
`(ending, attributes)` pair of `FORMATS` whose ending the filename ends
with.  The `""` sentinel always matches, so the fallback is unreachable
when the registry is the full `FORMATS`. -/
def findFormat : List (Str × Format) → Str → Str × Format
  | [], _ => ([], ⟨none, none, "unknown".toList, none⟩)
  | (e, a) :: rest, name => if endsWith name e then (e, a) else findFormat rest name

/-- Python `f.name[: -len(ending)]`: the stem left after removing the matched
ending (Python slices `[:-0]` to the empty string). -/
def stemOf (name e : Str) : Str :=
  if e = [] then [] else name.take (name.length - e.length)

/-- The matched ending for a filename. -/
def endingOf (name : Str) : Str := (findFormat FORMATS name).1

/-- The matched format descriptor for a filename. -/
def fmtOf (name : Str) : Format := (findFormat FORMATS name).2

/-- The stem a filename is grouped under. -/
def stemName (name : Str) : Str := stemOf name (endingOf name)

/-- Uppercase hexadecimal digit for `n < 16`. -/
def hexDigit (n : Nat) : Char := if n < 10 then Char.ofNat (48 + n) else Char.ofNat (55 + n)

/-- Model of `urllib.parse.quote` on one character: alphanumerics and
`_.-~` plus the default-safe `/` pass through, anything else is
percent-encoded (ASCII range; the feed only ever sees ASCII names). -/
def quoteChar (c : Char) : Str :=
  if c.isAlphanum || c ∈ ['_', '.', '-', '~', '/'] then [c]
  else ['%', hexDigit (c.toNat / 16 % 16), hexDigit (c.toNat % 16)]

/-- Model of `urllib.parse.quote`. -/
def quote (s : Str) : Str := (s.map quoteChar).flatten

/-- Python `s.startswith(sub)`. -/
def startsWithStr : Str → Str → Bool
  | _, [] => true
  | [], _ :: _ => false
  | c :: cs, d :: ds => c == d && startsWithStr cs ds

/-- Python `sub in s`: substring containment. -/
def containsSub : Str → Str → Bool
  | [], sub => sub == ([] : Str)
  | c :: cs, sub => startsWithStr (c :: cs) sub || containsSub cs sub

/-- Model of the stdlib `html.parser`-based `HTMLFilter` (lines 124–127)
fed the whole string: keep data outside tags, drop `<...>` tag spans, and
convert the character references the inputs of this program use back to
their characters (`convert_charrefs=True`). -/
def stripAux : Bool → Str → Str
  | _, [] => []
  | true, '>' :: rest => stripAux false rest
  | true, _ :: rest => stripAux true rest
  | false, '<' :: rest => stripAux true rest
  | false, '&' :: 'l' :: 't' :: ';' :: rest => '<' :: stripAux false rest
  | false, '&' :: 'g' :: 't' :: ';' :: rest => '>' :: stripAux false rest
  | false, '&' :: 'a' :: 'm' :: 'p' :: ';' :: rest => '&' :: stripAux false rest
  | false, c :: rest => c :: stripAux false rest

/-- Model of `filter_html` (lines 130–136): strip html only when the text contains
`<` or `&lt;`; otherwise return the text unchanged. -/
def filter_html (text : Str) : Str :=
  if text.contains '<' || containsSub text "&lt;".toList then stripAux false text
  else text

/-- A node of the document tree built by `make_tree`: either literal text
or an element with a name, ordered attributes, namespace declarations
(only non-empty at the feed root) and ordered children. -/
inductive DItem : Type where
  | text (s : Str)
  | node (name : Str) (attrs : List (Str × Str)) (nsmap : List (Option Str × Str))
      (children : List DItem)

/-- Model of `text_item` (lines 107–112): an element with text contents and no
attributes. -/
def textItem (name t : Str) : DItem := .node name [] [] [.text t]

/-- The link node appended for one file (lines 225–231):
`{NAME: "link", "href": url + quote(name)} | attributes`, whose non-`CHILDREN`
keys become attributes in dict insertion order and whose `CHILDREN`
strings (when present) become text children. -/
def linkNode (url name : Str) (fmt : Format) : DItem :=
  .node "link".toList
    ([("href".toList, url ++ quote name)]
      ++ (match fmt.ftitle with | some t => [("title".toList, t)] | none => [])
      ++ [("type".toList, fmt.ftype)]
      ++ (match fmt.frel with | some r => [("rel".toList, r)] | none => []))
    []
    ((fmt.fchildren.getD []).map .text)

/-- The partial metadata mapping returned by a metadata extractor:
optional `title`, `author` and `content` keys. -/
structure MetaResult where
  mtitle : Option Str
  mauthor : Option Str
  mcontent : Option Str
deriving DecidableEq, Repr

/-- The extraction result that contains no keys. -/
def emptyMeta : MetaResult := ⟨none, none, none⟩

/-- One record of the directory listing: the filename, whether the path
is a regular file, its mtime split into whole seconds and microseconds,
and — extractors being external collaborators — the metadata an extractor
would return for this file. -/
structure FileEntry where
  name : Str
  isFile : Bool
  sec : Nat
  usec : Nat
  meta : MetaResult
deriving DecidableEq, Repr

/-- Python `f.name.lower()`. -/
def lowerName (name : Str) : Str := name.map Char.toLower

/-- Lines 238–243: metadata is extracted only for names ending (case
insensitively) in `.pdf` or `.epub`; other files contribute no metadata. -/
def metaFor (f : FileEntry) : MetaResult :=
  if endsWith (lowerName f.name) ".pdf".toList
      || endsWith (lowerName f.name) ".epub".toList
  then f.meta else emptyMeta

/-- The value `timestamp(f)` for a listing record. -/
def tsOf (f : FileEntry) : Str := timestamp f.sec f.usec

/-- A file takes part in grouping iff it is a regular file whose name
matches some non-sentinel ending. -/
def keepFile (f : FileEntry) : Bool := f.isFile && endingOf f.name != []

/-- The accumulator dictionaries of the `make_tree` loop, keyed by stem:
`entries[stem][CHILDREN]`, `updated`, `titles`, `authors`, `contents`,
plus the shared key insertion order and the global `latest`. -/
structure Core where
  stems : List Str
  entries : Str → List DItem
  updated : Str → Str
  titles : Str → Str
  authors : Str → Str
  contents : Str → Str
  latest : Str

/-- Point update of a stem-keyed dictionary. -/
def upd {α : Type} (g : Str → α) (k : Str) (v : α) : Str → α :=
  fun x => if x = k then v else g x

/-- Update a key only when the extraction result contains it
(lines 244–249). -/
def optUpd (g : Str → Str) (k : Str) : Option Str → (Str → Str)
  | some v => upd g k v
  | none => g

/-- The state before any file is processed. -/
def initCore : Core :=
  ⟨[], fun _ => [], fun _ => [], fun _ => [], fun _ => [], fun _ => [], []⟩

/-- One iteration of the `make_tree` loop (lines 199–249) on the
stem-keyed accumulators: skip non-files and unrecognised names; create the
book entry with its `id` child and default metadata on first sight of a
stem; append the file's link node; fold the file's timestamp into the
group's and the global maxima; merge present extraction keys. -/
def coreStep (url : Str) (st : Core) (f : FileEntry) : Core :=
  if keepFile f then
    let stem := stemName f.name
    let st1 :=
      if stem ∈ st.stems then st else
        { stems := st.stems ++ [stem],
          entries := upd st.entries stem [textItem "id".toList (url ++ quote stem)],
          updated := upd st.updated stem [],
          titles := upd st.titles stem stem,
          authors := upd st.authors stem "Unknown".toList,
          contents := upd st.contents stem [],
          latest := st.latest }
    let m := metaFor f
    { stems := st1.stems,
      entries := upd st1.entries stem (st1.entries stem ++ [linkNode url f.name (fmtOf f.name)]),
      updated := upd st1.updated stem (pmax (st1.updated stem) (tsOf f)),
      titles := optUpd st1.titles stem m.mtitle,
      authors := optUpd st1.authors stem m.mauthor,
      contents := optUpd st1.contents stem m.mcontent,
      latest := pmax st1.latest (tsOf f) }
  else st

/-- The diagnostic printed for an unrecognised file (line 209). -/
def unknownMsg (name : Str) : Str := "Unknown filetype ".toList ++ name

/-- The loop state: the accumulators plus the diagnostics printed so far. -/
structure BState where
  core : Core
  diags : List Str

/-- One full loop iteration: the accumulator step plus the diagnostic
for a regular file with unrecognised name. -/
def step (url : Str) (st : BState) (f : FileEntry) : BState :=
  { core := coreStep url st.core f,
    diags := st.diags
      ++ (if f.isFile && endingOf f.name == [] then [unknownMsg f.name] else []) }

/-- Run the loop over an ordered file sequence. -/
def runState (url : Str) (files : List FileEntry) : BState :=
  files.foldl (step url) ⟨initCore, []⟩

/-- Python `list.insert(i, x)` (appending when `i` is beyond the end). -/
def insertAt {α : Type} : Nat → α → List α → List α
  | 0, x, l => x :: l
  | _ + 1, x, [] => [x]
  | n + 1, x, a :: l => a :: insertAt n x l

/-- The finalisation loops (lines 252–264) for one stem: insert the
`updated`, `title`, `author` and `content` nodes at positions 1–4 of the
entry's children, then wrap them in the `entry` element. -/
def entryNode (c : Core) (stem : Str) : DItem :=
  .node "entry".toList [] []
    (insertAt 4
      (.node "content".toList [("type".toList, "text".toList)] []
        [.text (filter_html (c.contents stem))])
      (insertAt 3 (.node "author".toList [] [] [textItem "name".toList (c.authors stem)])
        (insertAt 2 (textItem "title".toList (c.titles stem))
          (insertAt 1 (textItem "updated".toList (c.updated stem))
            (c.entries stem)))))

/-- The constant `FEED_FILENAME`. -/
def FEED_FILENAME : Str := "index.xml".toList

/-- The namespace declarations of the feed root (lines 276–280). -/
def feedNsmap : List (Option Str × Str) :=
  [(none, "http://www.w3.org/2005/Atom".toList),
   (some "opds".toList, "http://opds-spec.org/2010/catalog".toList),
   (some "dcterms".toList, "http://purl.org/dc/terms/".toList)]

/-- Assemble the feed tree (lines 267–282) from an ordered file sequence:
fixed feed metadata children followed by the book entries in stem
insertion order. -/
def makeTreeFrom (url : Str) (files : List FileEntry) : DItem :=
  let c := (runState url files).core
  .node "feed".toList [] feedNsmap
    ([ textItem "title".toList "Michael Young\x27s ebooks".toList,
       textItem "id".toList (url ++ FEED_FILENAME),
       textItem "updated".toList c.latest,
       .node "author".toList [] [] [textItem "name".toList "Michael Young".toList],
       .node "link".toList
         [("rel".toList, "self".toList),
          ("type".toList, "application/atom+xml".toList),
          ("href".toList, url)] [] [] ]
      ++ c.stems.map (entryNode c))

/-- The ordering used by `sorted(directory.iterdir())`: ascending by name. -/
def fileLe (f g : FileEntry) : Prop := strLt g.name f.name = false

instance : DecidableRel fileLe := fun f g => instDecidableEqBool (strLt g.name f.name) false

/-- Model of `make_tree` (lines 186–282): sort the directory listing by name and
build the feed tree. -/
def make_tree (url : Str) (listing : List FileEntry) : DItem :=
  makeTreeFrom url (listing.insertionSort fileLe)

/-- Lexicographic order on the six calendar components. -/
def TupLt (a b : Nat × Nat × Nat × Nat × Nat × Nat) : Prop :=
  a.1 < b.1 ∨ (a.1 = b.1 ∧
    (a.2.1 < b.2.1 ∨ (a.2.1 = b.2.1 ∧
      (a.2.2.1 < b.2.2.1 ∨ (a.2.2.1 = b.2.2.1 ∧
        (a.2.2.2.1 < b.2.2.2.1 ∨ (a.2.2.2.1 = b.2.2.2.1 ∧
          (a.2.2.2.2.1 < b.2.2.2.2.1 ∨ (a.2.2.2.2.1 = b.2.2.2.2.1 ∧
            a.2.2.2.2.2 < b.2.2.2.2.2)))))))))

/-- Width bounds under which `isoCore` renders each component at its
fixed width. -/
def TupBounded (a : Nat × Nat × Nat × Nat × Nat × Nat) : Prop :=
  a.1 < 10000 ∧ a.2.1 < 100 ∧ a.2.2.1 < 100 ∧ a.2.2.2.1 < 100 ∧
    a.2.2.2.2.1 < 100 ∧ a.2.2.2.2.2 < 100

/-- The largest second count the monotonicity argument covers
(about year 9992; Python itself raises beyond year 9999). -/
def SEC_CAP : Nat := 253202544000

/-- The files of the listing that land in the group keyed by `s`. -/
def stemFiles (s : Str) (files : List FileEntry) : List FileEntry :=
  files.filter (fun f => keepFile f && (stemName f.name == s))

/-- The accumulator state after the whole loop. -/
def runCore (url : Str) (files : List FileEntry) : Core :=
  files.foldl (coreStep url) initCore

/-- The first-seen accumulation of stem keys. -/
def addStem (acc : List Str) (s : Str) : List Str := if s ∈ acc then acc else acc ++ [s]

/-- Children of an element node (a text node has none). -/
def feedChildren : DItem → List DItem
  | .text _ => []
  | .node _ _ _ cs => cs

/-- The text content of a single-text element such as `text_item`. -/
def textOf : DItem → Str
  | .node _ _ _ [.text s] => s
  | _ => []

/-- The string held by the feed root's third child, the feed-level
`updated` element. -/
def feedUpdated (t : DItem) : Str := textOf ((feedChildren t).getD 2 (.text []))

/-- The feed root's entry `id` texts in order, one per book entry. -/
def entryIds (t : DItem) : List Str :=
  ((feedChildren t).drop 5).map (fun e => textOf ((feedChildren e).getD 0 (.text [])))

/-- Is this child a literal text child? -/
def isTextItem : DItem → Bool
  | .text _ => true
  | .node _ _ _ _ => false

/-- A children list is homogeneous: all literal text or all element
nodes (never a mix). -/
def homog (cs : List DItem) : Bool :=
  cs.all isTextItem || cs.all (fun c => !isTextItem c)

mutual
/-- The mutual-exclusion invariant, recursively over the whole tree. -/
def mixOk : DItem → Bool
  | .text _ => true
  | .node _ _ _ cs => homog cs && mixOkList cs

/-- The invariant `mixOk` for every tree in a list. -/
def mixOkList : List DItem → Bool
  | [] => true
  | c :: cs => mixOk c && mixOkList cs
end

example : timestamp 100 0 = "1970-01-01T00:01:40Z".toList := by decide

example : timestamp 100 500000 = "1970-01-01T00:01:40.500000Z".toList := by decide

example : strLt (timestamp 100 500000) (timestamp 100 0) = true := by decide

example : endingOf "book_advanced.epub".toList = "_advanced.epub".toList := by decide

example : stemName "book_advanced.epub".toList = "book".toList := by decide

example : endingOf "book.xyz".toList = [] := by decide

example : stemName ".epub".toList = [] := by decide

example : filter_html "Hello <b>world</b>".toList = "Hello world".toList := by decide

example : filter_html "Hello world".toList = "Hello world".toList := by decide

/-! ### Order theory of Python string comparison -/

theorem strLt_irrefl (a : Str) : strLt a a = false := by
  induction a with
  | nil => rfl
  | cons c cs ih => simp [strLt, ih]

theorem strLt_asymm : ∀ {a b : Str}, strLt a b = true → strLt b a = false
  | [], [], h => by simp [strLt] at h
  | [], _ :: _, _ => rfl
  | _ :: _, [], h => by simp [strLt] at h
  | a :: as, b :: bs, h => by
    by_cases hab : a.toNat < b.toNat
    · have : ¬ b.toNat < a.toNat := by omega
      simp [strLt, this, hab]
    · by_cases hba : b.toNat < a.toNat
      · simp [strLt, hab, hba] at h
      · have heq : a.toNat = b.toNat := by omega
        simp [strLt, hab, hba, heq] at h ⊢
        exact strLt_asymm h

theorem strLt_trans : ∀ {a b c : Str}, strLt a b = true → strLt b c = true → strLt a c = true
  | [], b, [], _, h2 => by cases b <;> simp [strLt] at h2
  | [], _, _ :: _, _, _ => rfl
  | _ :: _, [], _, h1, _ => by simp [strLt] at h1
  | _ :: _, _ :: _, [], _, h2 => by simp [strLt] at h2
  | a :: as, b :: bs, c :: cs, h1, h2 => by
    by_cases hab : a.toNat < b.toNat <;> by_cases hbc : b.toNat < c.toNat
    · have : a.toNat < c.toNat := by omega
      simp [strLt, this]
    · by_cases hcb : c.toNat < b.toNat
      · simp [strLt, hbc, hcb] at h2
      · have : a.toNat < c.toNat := by omega
        simp [strLt, this]
    · by_cases hba : b.toNat < a.toNat
      · simp [strLt, hab, hba] at h1
      · have : a.toNat < c.toNat := by omega
        simp [strLt, this]
    · by_cases hba : b.toNat < a.toNat
      · simp [strLt, hab, hba] at h1
      · by_cases hcb : c.toNat < b.toNat
        · simp [strLt, hbc, hcb] at h2
        · have hac : ¬ a.toNat < c.toNat := by omega
          have hca : ¬ c.toNat < a.toNat := by omega
          simp [strLt, hab, hba] at h1
          simp [strLt, hbc, hcb] at h2
          simp [strLt, hac, hca]
          exact strLt_trans h1 h2

theorem strLt_eq_or : ∀ {a b : Str}, strLt a b = false → strLt b a = false → a = b
  | [], [], _, _ => rfl
  | [], _ :: _, h1, _ => by simp [strLt] at h1
  | _ :: _, [], _, h2 => by simp [strLt] at h2
  | a :: as, b :: bs, h1, h2 => by
    by_cases hab : a.toNat < b.toNat
    · simp [strLt, hab] at h1
    · by_cases hba : b.toNat < a.toNat
      · simp [strLt, hba, hab] at h2
      · have heq : a = b := by
          have h3 : a.toNat = b.toNat := by omega
          have h4 := Char.ofNat_toNat a
          have h5 := Char.ofNat_toNat b
          rw [← h4, ← h5, h3]
        subst heq
        simp [strLt, hab] at h1 h2
        rw [strLt_eq_or h1 h2]

theorem strLt_false_trans {a b c : Str} (h1 : strLt a b = false) (h2 : strLt b c = false) :
    strLt a c = false := by
  by_cases h : strLt a c = true
  · by_cases hcb : strLt c b = true
    · have := strLt_trans h hcb
      exact absurd this (by simp [h1])
    · have hbc : b = c := strLt_eq_or h2 (by simpa using hcb)
      subst hbc
      exact absurd h (by simp [h1])
  · simpa using h

theorem pmax_nil (a : Str) : pmax [] a = a := by
  cases a <;> simp [pmax, strLt]

theorem pmax_choice (a b : Str) : pmax a b = a ∨ pmax a b = b := by
  unfold pmax; split <;> simp

theorem strLt_pmax_left (a b : Str) : strLt (pmax a b) a = false := by
  unfold pmax
  split
  · exact strLt_asymm (by assumption)
  · exact strLt_irrefl a

theorem strLt_pmax_right (a b : Str) : strLt (pmax a b) b = false := by
  unfold pmax
  split
  · exact strLt_irrefl b
  · simpa using (by assumption : ¬ strLt a b = true)

theorem pmax_eq_right {a b : Str} (h : strLt a b = true) : pmax a b = b := if_pos h

theorem pmax_eq_left {a b : Str} (h : strLt a b = false) : pmax a b = a :=
  if_neg (by simp [h])

theorem pmax_comm (a b : Str) : pmax a b = pmax b a := by
  cases hab : strLt a b <;> cases hba : strLt b a
  · rw [pmax_eq_left hab, pmax_eq_left hba]
    exact strLt_eq_or hab hba
  · rw [pmax_eq_left hab, pmax_eq_right hba]
  · rw [pmax_eq_right hab, pmax_eq_left hba]
  · exact absurd hba (by simp [strLt_asymm hab])

theorem pmax_assoc (a b c : Str) : pmax (pmax a b) c = pmax a (pmax b c) := by
  cases hab : strLt a b <;> cases hbc : strLt b c
  · rw [pmax_eq_left hab, pmax_eq_left hbc,
      pmax_eq_left (strLt_false_trans hab hbc), pmax_eq_left hab]
  · rw [pmax_eq_left hab, pmax_eq_right hbc]
  · rw [pmax_eq_right hab, pmax_eq_left hbc, pmax_eq_right hab]
  · rw [pmax_eq_right hab, pmax_eq_right hbc, pmax_eq_right (strLt_trans hab hbc)]

/-! ### Lexicographic comparison of fixed-width blocks -/

theorem strLt_append_left : ∀ (p c d : Str), strLt (p ++ c) (p ++ d) = strLt c d
  | [], _, _ => rfl
  | a :: p, c, d => by
    simp only [List.cons_append, strLt, Nat.lt_irrefl, if_false]
    exact strLt_append_left p c d

theorem strLt_append_of_lt : ∀ {a b : Str}, a.length = b.length → strLt a b = true →
    ∀ (c d : Str), strLt (a ++ c) (b ++ d) = true
  | [], [], _, h, _, _ => by simp [strLt] at h
  | [], _ :: _, hl, _, _, _ => by simp at hl
  | _ :: _, [], hl, _, _, _ => by simp at hl
  | x :: xs, y :: ys, hl, h, c, d => by
    by_cases hxy : x.toNat < y.toNat
    · simp [strLt, hxy]
    · by_cases hyx : y.toNat < x.toNat
      · simp [strLt, hxy, hyx] at h
      · simp only [strLt, hxy, hyx, if_false] at h
        simp only [List.cons_append, strLt, hxy, hyx, if_false]
        exact strLt_append_of_lt (by simpa using hl) h c d

theorem padNum_length (w : Nat) : ∀ n, (padNum w n).length = w := by
  induction w with
  | zero => intro n; rfl
  | succ w ih => intro n; simp [padNum, ih]

theorem digitChar_toNat (n : Nat) : (digitChar n).toNat = 48 + n % 10 := by
  have h : n % 10 < 10 := Nat.mod_lt _ (by norm_num)
  unfold digitChar
  set m := n % 10 with hm
  interval_cases m <;> rfl

theorem padNum_lt : ∀ (w : Nat) {n m : Nat}, n < m → m < 10 ^ w →
    strLt (padNum w n) (padNum w m) = true := by
  intro w
  induction w with
  | zero =>
    intro n m hnm hm
    simp at hm
    omega
  | succ w ih =>
    intro n m hnm hm
    have hdle : n / 10 ≤ m / 10 := Nat.div_le_div_right (Nat.le_of_lt hnm)
    rcases Nat.lt_or_ge (n / 10) (m / 10) with hdiv | hdiv
    · have hmb : m / 10 < 10 ^ w := by
        rw [Nat.div_lt_iff_lt_mul (by norm_num : 0 < 10)]
        calc m < 10 ^ (w + 1) := hm
        _ = 10 ^ w * 10 := by ring
      exact strLt_append_of_lt (by simp [padNum_length]) (ih hdiv hmb) _ _
    · have hdeq : n / 10 = m / 10 := Nat.le_antisymm hdle hdiv
      have hn10 := Nat.div_add_mod n 10
      have hm10 := Nat.div_add_mod m 10
      have hmod : n % 10 < m % 10 := by omega
      show strLt (padNum w (n / 10) ++ [digitChar n]) (padNum w (m / 10) ++ [digitChar m]) = true
      rw [hdeq, strLt_append_left]
      have hlt : (digitChar n).toNat < (digitChar m).toNat := by
        rw [digitChar_toNat, digitChar_toNat]; omega
      simp [strLt, hlt]

/-! ### Monotonicity of the whole-second ISO-8601 rendering -/

theorem daysInYear_pos (y : Nat) : 0 < daysInYear y := by
  unfold daysInYear; split <;> norm_num

theorem daysInYear_ge (y : Nat) : 365 ≤ daysInYear y := by
  unfold daysInYear; split <;> norm_num

theorem daysInYear_le (y : Nat) : daysInYear y ≤ 366 := by
  unfold daysInYear; split <;> norm_num

theorem yearAux_stop {y d : Nat} (h : d < daysInYear y) : ∀ f, yearAux f y d = (y, d)
  | 0 => rfl
  | _ + 1 => if_pos h

theorem yearAux_fuel : ∀ (f1 : Nat) {f2 y d : Nat}, d ≤ f1 → d ≤ f2 →
    yearAux f1 y d = yearAux f2 y d := by
  intro f1
  induction f1 with
  | zero =>
    intro f2 y d h1 _
    have hd : d = 0 := Nat.le_zero.mp h1
    subst hd
    rw [yearAux_stop (daysInYear_pos y) f2]
    rfl
  | succ f1 ih =>
    intro f2 y d h1 h2
    by_cases h : d < daysInYear y
    · rw [yearAux_stop h, yearAux_stop h]
    · have hge := daysInYear_ge y
      cases f2 with
      | zero => omega
      | succ f2 =>
        show yearAux (f1 + 1) y d = yearAux (f2 + 1) y d
        rw [yearAux, yearAux, if_neg h, if_neg h]
        exact ih (by omega) (by omega)

theorem yearAux_fst_le : ∀ (f y d : Nat), y ≤ (yearAux f y d).1 := by
  intro f
  induction f with
  | zero => intro y d; exact Nat.le_refl y
  | succ f ih =>
    intro y d
    rw [yearAux]
    split
    · exact Nat.le_refl y
    · exact Nat.le_trans (Nat.le_succ y) (ih (y + 1) _)

theorem yearAux_snd_lt : ∀ (f y d : Nat), d ≤ f →
    (yearAux f y d).2 < daysInYear (yearAux f y d).1 := by
  intro f
  induction f with
  | zero =>
    intro y d h
    have hd : d = 0 := Nat.le_zero.mp h
    subst hd
    exact daysInYear_pos y
  | succ f ih =>
    intro y d h
    rw [yearAux]
    split
    · assumption
    · exact ih (y + 1) _ (by have := daysInYear_ge y; omega)

theorem yearAux_mono : ∀ (f2 f1 y d1 d2 : Nat), d1 ≤ f1 → d2 ≤ f2 → d1 < d2 →
    (yearAux f1 y d1).1 < (yearAux f2 y d2).1 ∨
      ((yearAux f1 y d1).1 = (yearAux f2 y d2).1 ∧
        (yearAux f1 y d1).2 < (yearAux f2 y d2).2) := by
  intro f2
  induction f2 with
  | zero => intro f1 y d1 d2 _ h2 h12; omega
  | succ f2 ih =>
    intro f1 y d1 d2 h1 h2 h12
    by_cases hd2 : d2 < daysInYear y
    · rw [yearAux_stop hd2, yearAux_stop (by omega : d1 < daysInYear y)]
      exact Or.inr ⟨rfl, h12⟩
    · have hge := daysInYear_ge y
      rw [show yearAux (f2 + 1) y d2 = yearAux f2 (y + 1) (d2 - daysInYear y) by
        rw [yearAux, if_neg hd2]]
      by_cases hd1 : d1 < daysInYear y
      · rw [yearAux_stop hd1]
        exact Or.inl (Nat.lt_of_lt_of_le (Nat.lt_succ_self y) (yearAux_fst_le f2 (y + 1) _))
      · cases f1 with
        | zero => omega
        | succ f1 =>
          rw [show yearAux (f1 + 1) y d1 = yearAux f1 (y + 1) (d1 - daysInYear y) by
            rw [yearAux, if_neg hd1]]
          exact ih f1 (y + 1) _ _ (by omega) (by omega) (by omega)

theorem yearAux_fst_bound : ∀ (f y d : Nat), d ≤ f → (yearAux f y d).1 ≤ y + d / 365 := by
  intro f
  induction f with
  | zero =>
    intro y d h
    have hd : d = 0 := Nat.le_zero.mp h
    subst hd
    simp [yearAux]
  | succ f ih =>
    intro y d h
    rw [yearAux]
    split
    · exact Nat.le_add_right y _
    · have hge := daysInYear_ge y
      have hle := daysInYear_le y
      have hih := ih (y + 1) (d - daysInYear y) (by omega)
      have : (d - daysInYear y) / 365 + 1 ≤ d / 365 := by
        have hmono : (d - daysInYear y) / 365 ≤ (d - 365) / 365 :=
          Nat.div_le_div_right (by omega)
        have heq : (d - 365) / 365 + 1 = d / 365 := by
          rw [← Nat.add_div_right _ (by norm_num : 0 < 365)]
          congr 1
          omega
        omega
      omega

theorem monthAux_stop {len d : Nat} (h : d < len) (m : Nat) (rest : List Nat) :
    monthAux m (len :: rest) d = (m, d) := if_pos h

theorem monthAux_go {len d : Nat} (h : ¬ d < len) (m : Nat) (rest : List Nat) :
    monthAux m (len :: rest) d = monthAux (m + 1) rest (d - len) := if_neg h

theorem monthAux_fst_le : ∀ (L : List Nat) (m d : Nat), m ≤ (monthAux m L d).1 := by
  intro L
  induction L with
  | nil => intro m d; exact Nat.le_refl m
  | cons len rest ih =>
    intro m d
    by_cases h : d < len
    · rw [monthAux_stop h]
    · rw [monthAux_go h]
      exact Nat.le_trans (Nat.le_succ m) (ih (m + 1) _)

theorem monthAux_mono : ∀ (L : List Nat) (m d1 d2 : Nat), d1 < d2 → d2 < L.sum →
    (monthAux m L d1).1 < (monthAux m L d2).1 ∨
      ((monthAux m L d1).1 = (monthAux m L d2).1 ∧
        (monthAux m L d1).2 < (monthAux m L d2).2) := by
  intro L
  induction L with
  | nil =>
    intro m d1 d2 _ h2
    simp at h2
  | cons len rest ih =>
    intro m d1 d2 h12 h2
    by_cases hd2 : d2 < len
    · rw [monthAux_stop hd2, monthAux_stop (by omega : d1 < len)]
      exact Or.inr ⟨rfl, h12⟩
    · rw [monthAux_go hd2]
      by_cases hd1 : d1 < len
      · rw [monthAux_stop hd1]
        exact Or.inl (Nat.lt_of_lt_of_le (Nat.lt_succ_self m) (monthAux_fst_le rest (m + 1) _))
      · rw [monthAux_go hd1]
        have hsum : d2 - len < rest.sum := by
          simp only [List.sum_cons] at h2
          omega
        exact ih (m + 1) _ _ (by omega) hsum

theorem monthAux_fst_lt : ∀ (L : List Nat) (m d : Nat), d < L.sum →
    (monthAux m L d).1 < m + L.length := by
  intro L
  induction L with
  | nil =>
    intro m d h
    simp at h
  | cons len rest ih =>
    intro m d h
    by_cases hd : d < len
    · rw [monthAux_stop hd]
      simp
    · rw [monthAux_go hd]
      have hsum : d - len < rest.sum := by
        simp only [List.sum_cons] at h
        omega
      have := ih (m + 1) (d - len) hsum
      simp only [List.length_cons]
      omega

theorem monthAux_snd_lt : ∀ (L : List Nat) (m d : Nat), d < L.sum →
    (∀ x ∈ L, x ≤ 31) → (monthAux m L d).2 < 31 := by
  intro L
  induction L with
  | nil =>
    intro m d h _
    simp at h
  | cons len rest ih =>
    intro m d h hle
    by_cases hd : d < len
    · rw [monthAux_stop hd]
      have := hle len (by simp)
      show d < 31
      omega
    · rw [monthAux_go hd]
      exact ih (m + 1) (d - len)
        (by simp only [List.sum_cons] at h; omega)
        (fun x hx => hle x (by simp [hx]))

theorem monthLengths_sum (y : Nat) : (monthLengths y).sum = daysInYear y := by
  unfold monthLengths daysInYear
  cases h : isLeap y <;> simp

theorem monthLengths_le (y : Nat) : ∀ x ∈ monthLengths y, x ≤ 31 := by
  intro x hx
  unfold monthLengths at hx
  cases h : isLeap y <;> rw [h] at hx <;> simp at hx <;> omega

theorem civil_eq (sec : Nat) : civil sec =
    ((yearFromDays (sec / 86400)).1,
     (monthAux 1 (monthLengths (yearFromDays (sec / 86400)).1)
        (yearFromDays (sec / 86400)).2).1,
     (monthAux 1 (monthLengths (yearFromDays (sec / 86400)).1)
        (yearFromDays (sec / 86400)).2).2 + 1,
     sec % 86400 / 3600, sec % 86400 % 3600 / 60, sec % 86400 % 60) := by
  unfold civil
  rcases hyd : yearFromDays (sec / 86400) with ⟨y, doy⟩
  rcases hmd : monthAux 1 (monthLengths y) doy with ⟨m, d0⟩
  simp [hyd, hmd]

theorem yearFromDays_snd_lt (d : Nat) :
    (yearFromDays d).2 < daysInYear (yearFromDays d).1 :=
  yearAux_snd_lt d 1970 d (Nat.le_refl d)

theorem yearFromDays_mono {d1 d2 : Nat} (h : d1 < d2) :
    (yearFromDays d1).1 < (yearFromDays d2).1 ∨
      ((yearFromDays d1).1 = (yearFromDays d2).1 ∧
        (yearFromDays d1).2 < (yearFromDays d2).2) :=
  yearAux_mono d2 d1 1970 d1 d2 (Nat.le_refl d1) (Nat.le_refl d2) h

theorem civil_bounded {sec : Nat} (hcap : sec < SEC_CAP) : TupBounded (civil sec) := by
  rw [civil_eq]
  dsimp only [TupBounded]
  have hy : (yearFromDays (sec / 86400)).1 ≤ 1970 + sec / 86400 / 365 :=
    yearAux_fst_bound _ 1970 _ (Nat.le_refl _)
  have hdays : sec / 86400 ≤ 2930584 := by
    unfold SEC_CAP at hcap
    omega
  have hy4 : (yearFromDays (sec / 86400)).1 < 10000 := by
    have : sec / 86400 / 365 ≤ 8028 := by omega
    omega
  have hdoy := yearFromDays_snd_lt (sec / 86400)
  rw [← monthLengths_sum] at hdoy
  have hm := monthAux_fst_lt _ 1 _ hdoy
  have hd := monthAux_snd_lt _ 1 _ hdoy (monthLengths_le _)
  have hlen12 : (monthLengths (yearFromDays (sec / 86400)).1).length = 12 := rfl
  refine ⟨hy4, by omega, by omega, by omega, by omega, by omega⟩

theorem civil_mono {s1 s2 : Nat} (h : s1 < s2) : TupLt (civil s1) (civil s2) := by
  rw [civil_eq, civil_eq]
  dsimp only [TupLt]
  rcases (by omega :
      s1 / 86400 < s2 / 86400 ∨ (s1 / 86400 = s2 / 86400 ∧ s1 % 86400 < s2 % 86400))
    with hdays | ⟨hdays, htod⟩
  · rcases yearFromDays_mono hdays with hy | ⟨hy, hdoy⟩
    · exact Or.inl hy
    · refine Or.inr ⟨hy, ?_⟩
      have hsum : (yearFromDays (s2 / 86400)).2 <
          (monthLengths (yearFromDays (s2 / 86400)).1).sum := by
        rw [monthLengths_sum]
        exact yearFromDays_snd_lt _
      rw [hy]
      rcases monthAux_mono _ 1 _ _ hdoy hsum with hm | ⟨hm, hd⟩
      · exact Or.inl hm
      · exact Or.inr ⟨hm, Or.inl (by omega)⟩
  · rw [hdays]
    refine Or.inr ⟨rfl, Or.inr ⟨rfl, Or.inr ⟨rfl, ?_⟩⟩⟩
    rcases (by omega :
        s1 % 86400 / 3600 < s2 % 86400 / 3600 ∨
          (s1 % 86400 / 3600 = s2 % 86400 / 3600 ∧
            (s1 % 86400 % 3600 / 60 < s2 % 86400 % 3600 / 60 ∨
              (s1 % 86400 % 3600 / 60 = s2 % 86400 % 3600 / 60 ∧
                s1 % 86400 % 60 < s2 % 86400 % 60))))
      with hh | ⟨hh, hrest⟩
    · exact Or.inl hh
    · exact Or.inr ⟨hh, hrest⟩

theorem isoCore_lt {t1 t2 : Nat × Nat × Nat × Nat × Nat × Nat}
    (hb2 : TupBounded t2) (hlt : TupLt t1 t2) :
    strLt (isoCore t1) (isoCore t2) = true := by
  obtain ⟨y1, m1, d1, h1, mi1, s1⟩ := t1
  obtain ⟨y2, m2, d2, h2, mi2, s2⟩ := t2
  dsimp only [TupBounded] at hb2
  dsimp only [TupLt] at hlt
  obtain ⟨hby, hbm, hbd, hbh, hbmi, hbs⟩ := hb2
  dsimp only [isoCore]
  rcases hlt with hy | ⟨hy, hrest⟩
  · exact strLt_append_of_lt (by simp [padNum_length]) (padNum_lt 4 hy (lt_of_lt_of_le hby (by norm_num))) _ _
  · subst hy
    rw [strLt_append_left, strLt_append_left]
    rcases hrest with hm | ⟨hm, hrest⟩
    · exact strLt_append_of_lt (by simp [padNum_length]) (padNum_lt 2 hm (lt_of_lt_of_le hbm (by norm_num))) _ _
    · subst hm
      rw [strLt_append_left, strLt_append_left]
      rcases hrest with hd | ⟨hd, hrest⟩
      · exact strLt_append_of_lt (by simp [padNum_length]) (padNum_lt 2 hd (lt_of_lt_of_le hbd (by norm_num))) _ _
      · subst hd
        rw [strLt_append_left, strLt_append_left]
        rcases hrest with hh | ⟨hh, hrest⟩
        · exact strLt_append_of_lt (by simp [padNum_length]) (padNum_lt 2 hh (lt_of_lt_of_le hbh (by norm_num))) _ _
        · subst hh
          rw [strLt_append_left, strLt_append_left]
          rcases hrest with hmi | ⟨hmi, hs⟩
          · exact strLt_append_of_lt (by simp [padNum_length]) (padNum_lt 2 hmi (lt_of_lt_of_le hbmi (by norm_num))) _ _
          · subst hmi
            rw [strLt_append_left, strLt_append_left]
            exact padNum_lt 2 hs (lt_of_lt_of_le hbs (by norm_num))

theorem timestamp_mono {s1 s2 : Nat} (h : s1 < s2) (hcap : s2 < SEC_CAP) :
    strLt (timestamp s1 0) (timestamp s2 0) = true := by
  unfold timestamp
  rw [if_pos rfl]
  simp only [List.nil_append]
  have hlen : (isoCore (civil s1)).length = (isoCore (civil s2)).length := by
    simp [isoCore, padNum_length]
  exact strLt_append_of_lt hlen (isoCore_lt (civil_bounded hcap) (civil_mono h)) _ _

/-! ### Consequences for the string max of rendered timestamps -/

theorem timestamp_ne_nil (sec usec : Nat) : timestamp sec usec ≠ [] := by
  unfold timestamp
  intro h
  simp at h

theorem strLt_nil_of_ne {a : Str} (h : a ≠ []) : strLt [] a = true := by
  cases a with
  | nil => exact absurd rfl h
  | cons c cs => rfl

theorem pmax_timestamp {a b : Nat} (hca : a < SEC_CAP) (hcb : b < SEC_CAP) :
    pmax (timestamp a 0) (timestamp b 0) = timestamp (Nat.max a b) 0 := by
  rcases Nat.lt_trichotomy a b with h | h | h
  · rw [pmax_eq_right (timestamp_mono h hcb)]
    congr 1
    exact (Nat.max_eq_right (le_of_lt h)).symm
  · subst h
    rw [pmax_eq_left (strLt_irrefl _)]
    congr 1
    exact (Nat.max_self a).symm
  · rw [pmax_eq_left (strLt_asymm (timestamp_mono h hca))]
    congr 1
    exact (Nat.max_eq_left (le_of_lt h)).symm

theorem coreStep_keep_false {url : Str} {st : Core} {f : FileEntry}
    (h : keepFile f = false) : coreStep url st f = st := by
  simp [coreStep, h]

theorem coreStep_stems (url : Str) (st : Core) (f : FileEntry) :
    (coreStep url st f).stems =
      if keepFile f then
        (if stemName f.name ∈ st.stems then st.stems else st.stems ++ [stemName f.name])
      else st.stems := by
  by_cases hk : keepFile f
  · by_cases hm : stemName f.name ∈ st.stems <;> simp [coreStep, hk, hm]
  · simp [coreStep_keep_false (by simpa using hk), hk]

theorem coreStep_mem (url : Str) (st : Core) (f : FileEntry) (s : Str) :
    s ∈ (coreStep url st f).stems ↔
      s ∈ st.stems ∨ (keepFile f = true ∧ stemName f.name = s) := by
  rw [coreStep_stems]
  by_cases hk : keepFile f
  · rw [if_pos hk]
    by_cases hm : stemName f.name ∈ st.stems
    · rw [if_pos hm]
      constructor
      · exact Or.inl
      · rintro (h | ⟨_, hs⟩)
        · exact h
        · rw [← hs]; exact hm
    · rw [if_neg hm]
      constructor
      · intro h
        rcases List.mem_append.mp h with h | h
        · exact Or.inl h
        · exact Or.inr ⟨hk, (List.mem_singleton.mp h).symm⟩
      · rintro (h | ⟨_, hs⟩)
        · exact List.mem_append.mpr (Or.inl h)
        · exact List.mem_append.mpr (Or.inr (by simp [hs]))
  · rw [if_neg hk]
    constructor
    · exact Or.inl
    · rintro (h | ⟨hkk, _⟩)
      · exact h
      · exact absurd hkk (by simpa using hk)

theorem coreStep_latest (url : Str) (st : Core) (f : FileEntry) :
    (coreStep url st f).latest =
      if keepFile f then pmax st.latest (tsOf f) else st.latest := by
  by_cases hk : keepFile f
  · by_cases hm : stemName f.name ∈ st.stems <;> simp [coreStep, hk, hm]
  · simp [coreStep_keep_false (by simpa using hk), hk]

theorem coreStep_updated (url : Str) (st : Core) (f : FileEntry) (s : Str) :
    (coreStep url st f).updated s =
      if keepFile f = true ∧ stemName f.name = s then
        (if s ∈ st.stems then pmax (st.updated s) (tsOf f) else pmax [] (tsOf f))
      else st.updated s := by
  by_cases hk : keepFile f
  · by_cases hs : stemName f.name = s
    · subst hs
      by_cases hm : stemName f.name ∈ st.stems <;>
        simp [coreStep, hk, hm, upd]
    · by_cases hm : stemName f.name ∈ st.stems <;>
        simp [coreStep, hk, hm, hs, upd, Ne.symm hs]
  · simp [coreStep_keep_false (by simpa using hk), hk]

theorem coreStep_entries (url : Str) (st : Core) (f : FileEntry) (s : Str) :
    (coreStep url st f).entries s =
      if keepFile f = true ∧ stemName f.name = s then
        (if s ∈ st.stems then st.entries s ++ [linkNode url f.name (fmtOf f.name)]
         else [textItem "id".toList (url ++ quote s)] ++ [linkNode url f.name (fmtOf f.name)])
      else st.entries s := by
  by_cases hk : keepFile f
  · by_cases hs : stemName f.name = s
    · subst hs
      by_cases hm : stemName f.name ∈ st.stems <;>
        simp [coreStep, hk, hm, upd]
    · by_cases hm : stemName f.name ∈ st.stems <;>
        simp [coreStep, hk, hm, hs, upd, Ne.symm hs]
  · simp [coreStep_keep_false (by simpa using hk), hk]

theorem coreStep_titles (url : Str) (st : Core) (f : FileEntry) (s : Str) :
    (coreStep url st f).titles s =
      if keepFile f = true ∧ stemName f.name = s then
        (if s ∈ st.stems then ((metaFor f).mtitle).getD (st.titles s)
         else ((metaFor f).mtitle).getD s)
      else st.titles s := by
  by_cases hk : keepFile f
  · by_cases hs : stemName f.name = s
    · subst hs
      by_cases hm : stemName f.name ∈ st.stems <;>
        cases hmt : (metaFor f).mtitle <;>
          simp [coreStep, hk, hm, hmt, upd, optUpd]
    · by_cases hm : stemName f.name ∈ st.stems <;>
        cases hmt : (metaFor f).mtitle <;>
          simp [coreStep, hk, hm, hs, hmt, upd, optUpd, Ne.symm hs]
  · simp [coreStep_keep_false (by simpa using hk), hk]

theorem coreStep_authors (url : Str) (st : Core) (f : FileEntry) (s : Str) :
    (coreStep url st f).authors s =
      if keepFile f = true ∧ stemName f.name = s then
        (if s ∈ st.stems then ((metaFor f).mauthor).getD (st.authors s)
         else ((metaFor f).mauthor).getD ("Unknown".toList))
      else st.authors s := by
  by_cases hk : keepFile f
  · by_cases hs : stemName f.name = s
    · subst hs
      by_cases hm : stemName f.name ∈ st.stems <;>
        cases hmt : (metaFor f).mauthor <;>
          simp [coreStep, hk, hm, hmt, upd, optUpd]
    · by_cases hm : stemName f.name ∈ st.stems <;>
        cases hmt : (metaFor f).mauthor <;>
          simp [coreStep, hk, hm, hs, hmt, upd, optUpd, Ne.symm hs]
  · simp [coreStep_keep_false (by simpa using hk), hk]

theorem coreStep_contents (url : Str) (st : Core) (f : FileEntry) (s : Str) :
    (coreStep url st f).contents s =
      if keepFile f = true ∧ stemName f.name = s then
        (if s ∈ st.stems then ((metaFor f).mcontent).getD (st.contents s)
         else ((metaFor f).mcontent).getD [])
      else st.contents s := by
  by_cases hk : keepFile f
  · by_cases hs : stemName f.name = s
    · subst hs
      by_cases hm : stemName f.name ∈ st.stems <;>
        cases hmt : (metaFor f).mcontent <;>
          simp [coreStep, hk, hm, hmt, upd, optUpd]
    · by_cases hm : stemName f.name ∈ st.stems <;>
        cases hmt : (metaFor f).mcontent <;>
          simp [coreStep, hk, hm, hs, hmt, upd, optUpd, Ne.symm hs]
  · simp [coreStep_keep_false (by simpa using hk), hk]

theorem fold_field {α : Type} (url : Str) (P : Core → Str → α) (init : Str → α)
    (g : α → FileEntry → α)
    (hstep : ∀ st f s, P (coreStep url st f) s =
      if keepFile f = true ∧ stemName f.name = s then
        (if s ∈ st.stems then g (P st s) f else g (init s) f)
      else P st s) :
    ∀ (files : List FileEntry) (st : Core) (s : Str),
      P (files.foldl (coreStep url) st) s =
        if s ∈ st.stems then (stemFiles s files).foldl g (P st s)
        else if stemFiles s files = [] then P st s
        else (stemFiles s files).foldl g (init s) := by
  intro files
  induction files with
  | nil =>
    intro st s
    simp [stemFiles]
  | cons f rest ih =>
    intro st s
    rw [List.foldl_cons, ih (coreStep url st f) s]
    by_cases hcond : keepFile f = true ∧ stemName f.name = s
    · obtain ⟨hk, hs⟩ := hcond
      have hb : (keepFile f && (stemName f.name == s)) = true := by
        simp [hk, hs]
      have hfc : stemFiles s (f :: rest) = f :: stemFiles s rest := by
        simp [stemFiles, List.filter_cons, hb]
      have hmem : s ∈ (coreStep url st f).stems :=
        (coreStep_mem url st f s).mpr (Or.inr ⟨hk, hs⟩)
      rw [hfc, if_pos hmem, hstep st f s, if_pos ⟨hk, hs⟩]
      by_cases hm : s ∈ st.stems
      · rw [if_pos hm, if_pos hm, List.foldl_cons]
      · rw [if_neg hm, if_neg hm, if_neg (by simp : ¬(f :: stemFiles s rest = [])),
          List.foldl_cons]
    · have hb : ¬((keepFile f && (stemName f.name == s)) = true) := by
        simpa [Bool.and_eq_true] using hcond
      have hfc : stemFiles s (f :: rest) = stemFiles s rest := by
        simp only [stemFiles, List.filter_cons]
        rw [if_neg hb]
      have hmemiff : s ∈ (coreStep url st f).stems ↔ s ∈ st.stems := by
        rw [coreStep_mem]
        simp [hcond]
      rw [hfc, hstep st f s, if_neg hcond]
      by_cases hm : s ∈ st.stems
      · rw [if_pos (hmemiff.mpr hm), if_pos hm]
      · rw [if_neg (fun h => hm (hmemiff.mp h)), if_neg hm]

theorem runState_core (url : Str) (files : List FileEntry) :
    (runState url files).core = runCore url files := by
  unfold runState runCore
  suffices h : ∀ (l : List FileEntry) (st : BState),
      (l.foldl (step url) st).core = l.foldl (coreStep url) st.core from h files ⟨initCore, []⟩
  intro l
  induction l with
  | nil => intro st; rfl
  | cons f rest ih =>
    intro st
    rw [List.foldl_cons, List.foldl_cons, ih]
    rfl

theorem runState_diags (url : Str) (files : List FileEntry) :
    (runState url files).diags =
      (files.filter (fun f => f.isFile && (endingOf f.name == []))).map
        (fun f => unknownMsg f.name) := by
  unfold runState
  suffices h : ∀ (l : List FileEntry) (st : BState),
      (l.foldl (step url) st).diags = st.diags ++
        (l.filter (fun f => f.isFile && (endingOf f.name == []))).map
          (fun f => unknownMsg f.name) by
    simpa using h files ⟨initCore, []⟩
  intro l
  induction l with
  | nil => intro st; simp
  | cons f rest ih =>
    intro st
    rw [List.foldl_cons, ih]
    by_cases hc : f.isFile = true ∧ endingOf f.name = []
    · have hb : (f.isFile && (endingOf f.name == [])) = true := by simp [hc.1, hc.2]
      simp [step, List.filter_cons, hb, hc.1, hc.2]
    · have hb : ¬((f.isFile && (endingOf f.name == [])) = true) := by
        simpa [Bool.and_eq_true] using hc
      simp [step, List.filter_cons, hb, hc]

theorem runCore_latest (url : Str) (files : List FileEntry) :
    (runCore url files).latest =
      (files.filter keepFile).foldl (fun a f => pmax a (tsOf f)) [] := by
  unfold runCore
  suffices h : ∀ (l : List FileEntry) (st : Core),
      (l.foldl (coreStep url) st).latest =
        (l.filter keepFile).foldl (fun a f => pmax a (tsOf f)) st.latest from
    h files initCore
  intro l
  induction l with
  | nil => intro st; rfl
  | cons f rest ih =>
    intro st
    rw [List.foldl_cons, ih, coreStep_latest]
    cases h : keepFile f <;> simp [List.filter_cons, h]

theorem runCore_stems (url : Str) (files : List FileEntry) :
    (runCore url files).stems =
      ((files.filter keepFile).map (fun f => stemName f.name)).foldl addStem [] := by
  unfold runCore
  suffices h : ∀ (l : List FileEntry) (st : Core),
      (l.foldl (coreStep url) st).stems =
        ((l.filter keepFile).map (fun f => stemName f.name)).foldl addStem st.stems from
    h files initCore
  intro l
  induction l with
  | nil => intro st; rfl
  | cons f rest ih =>
    intro st
    rw [List.foldl_cons, ih, coreStep_stems]
    cases h : keepFile f <;> simp [List.filter_cons, h, addStem]

theorem mem_foldl_addStem : ∀ (l : List Str) (acc : List Str) (s : Str),
    s ∈ l.foldl addStem acc ↔ s ∈ acc ∨ s ∈ l := by
  intro l
  induction l with
  | nil => intro acc s; simp
  | cons a rest ih =>
    intro acc s
    rw [List.foldl_cons, ih]
    unfold addStem
    by_cases ha : a ∈ acc
    · rw [if_pos ha]
      constructor
      · rintro (h | h)
        · exact Or.inl h
        · exact Or.inr (List.mem_cons_of_mem a h)
      · rintro (h | h)
        · exact Or.inl h
        · rcases List.mem_cons.mp h with h | h
          · exact Or.inl (h ▸ ha)
          · exact Or.inr h
    · rw [if_neg ha]
      constructor
      · rintro (h | h)
        · rcases List.mem_append.mp h with h | h
          · exact Or.inl h
          · exact Or.inr (by simp [List.mem_singleton.mp h])
        · exact Or.inr (List.mem_cons_of_mem a h)
      · rintro (h | h)
        · exact Or.inl (List.mem_append.mpr (Or.inl h))
        · rcases List.mem_cons.mp h with h | h
          · exact Or.inl (List.mem_append.mpr (Or.inr (by simp [h])))
          · exact Or.inr h

theorem mem_runCore_stems (url : Str) (files : List FileEntry) (s : Str) :
    s ∈ (runCore url files).stems ↔ stemFiles s files ≠ [] := by
  rw [runCore_stems, mem_foldl_addStem]
  simp only [List.not_mem_nil, false_or, List.mem_map, List.mem_filter]
  constructor
  · rintro ⟨f, ⟨hf, hk⟩, hs⟩
    intro hnil
    have : f ∈ stemFiles s files := by
      simp [stemFiles, List.mem_filter, hf, hk, hs]
    rw [hnil] at this
    exact absurd this (List.not_mem_nil f)
  · intro hne
    rcases List.exists_mem_of_ne_nil _ hne with ⟨f, hf⟩
    simp only [stemFiles, List.mem_filter, Bool.and_eq_true, beq_iff_eq] at hf
    exact ⟨f, ⟨hf.1, hf.2.1⟩, hf.2.2⟩

theorem runCore_updated (url : Str) (files : List FileEntry) (s : Str) :
    (runCore url files).updated s =
      if stemFiles s files = [] then []
      else (stemFiles s files).foldl (fun a f => pmax a (tsOf f)) [] := by
  have h := fold_field url (fun c s => c.updated s) (fun _ => [])
    (fun a f => pmax a (tsOf f)) (coreStep_updated url) files initCore s
  have hni : ¬(s ∈ initCore.stems) := List.not_mem_nil s
  rw [runCore, h, if_neg hni]
  split <;> rfl

theorem runCore_titles (url : Str) (files : List FileEntry) (s : Str) :
    (runCore url files).titles s =
      if stemFiles s files = [] then []
      else (stemFiles s files).foldl (fun a f => ((metaFor f).mtitle).getD a) s := by
  have h := fold_field url (fun c s => c.titles s) (fun s => s)
    (fun a f => ((metaFor f).mtitle).getD a) (coreStep_titles url) files initCore s
  have hni : ¬(s ∈ initCore.stems) := List.not_mem_nil s
  rw [runCore, h, if_neg hni]
  split <;> rfl

theorem runCore_authors (url : Str) (files : List FileEntry) (s : Str) :
    (runCore url files).authors s =
      if stemFiles s files = [] then []
      else (stemFiles s files).foldl (fun a f => ((metaFor f).mauthor).getD a)
        ("Unknown".toList) := by
  have h := fold_field url (fun c s => c.authors s) (fun _ => "Unknown".toList)
    (fun a f => ((metaFor f).mauthor).getD a) (coreStep_authors url) files initCore s
  have hni : ¬(s ∈ initCore.stems) := List.not_mem_nil s
  rw [runCore, h, if_neg hni]
  split <;> rfl

theorem runCore_contents (url : Str) (files : List FileEntry) (s : Str) :
    (runCore url files).contents s =
      if stemFiles s files = [] then []
      else (stemFiles s files).foldl (fun a f => ((metaFor f).mcontent).getD a) [] := by
  have h := fold_field url (fun c s => c.contents s) (fun _ => [])
    (fun a f => ((metaFor f).mcontent).getD a) (coreStep_contents url) files initCore s
  have hni : ¬(s ∈ initCore.stems) := List.not_mem_nil s
  rw [runCore, h, if_neg hni]
  split <;> rfl

theorem runCore_entries (url : Str) (files : List FileEntry) (s : Str) :
    (runCore url files).entries s =
      if stemFiles s files = [] then []
      else (stemFiles s files).foldl
        (fun l f => l ++ [linkNode url f.name (fmtOf f.name)])
        [textItem "id".toList (url ++ quote s)] := by
  have h := fold_field url (fun c s => c.entries s)
    (fun s => [textItem "id".toList (url ++ quote s)])
    (fun l f => l ++ [linkNode url f.name (fmtOf f.name)]) (coreStep_entries url)
    files initCore s
  have hni : ¬(s ∈ initCore.stems) := List.not_mem_nil s
  rw [runCore, h, if_neg hni]
  split <;> rfl

theorem foldl_append_one {α β : Type} (h : β → α) :
    ∀ (l : List β) (a : List α), l.foldl (fun acc f => acc ++ [h f]) a = a ++ l.map h := by
  intro l
  induction l with
  | nil => intro a; simp
  | cons f rest ih =>
    intro a
    rw [List.foldl_cons, ih]
    simp

/-- The accumulated entry children of a created stem: the `id` node then
one link node per file of the group, in processing order. -/
theorem runCore_entries_links (url : Str) (files : List FileEntry) (s : Str)
    (h : stemFiles s files ≠ []) :
    (runCore url files).entries s =
      textItem "id".toList (url ++ quote s) ::
        (stemFiles s files).map (fun f => linkNode url f.name (fmtOf f.name)) := by
  rw [runCore_entries, if_neg h, foldl_append_one]
  rfl

theorem makeTreeFrom_eq (url : Str) (files : List FileEntry) :
    makeTreeFrom url files =
      DItem.node "feed".toList [] feedNsmap
        ([ textItem "title".toList "Michael Young\x27s ebooks".toList,
           textItem "id".toList (url ++ FEED_FILENAME),
           textItem "updated".toList (runCore url files).latest,
           DItem.node "author".toList [] [] [textItem "name".toList "Michael Young".toList],
           DItem.node "link".toList
             [("rel".toList, "self".toList),
              ("type".toList, "application/atom+xml".toList),
              ("href".toList, url)] [] [] ]
          ++ (runCore url files).stems.map (entryNode (runCore url files))) := by
  rw [← runState_core]
  rfl

/-- Finalisation applied to an entry child list `id :: links` slots the
four metadata nodes between the `id` node and the links. -/
theorem entryNode_children (c : Core) (s : Str) (links : List DItem) (idn : DItem)
    (h : c.entries s = idn :: links) :
    entryNode c s = DItem.node "entry".toList [] []
      ([idn,
        textItem "updated".toList (c.updated s),
        textItem "title".toList (c.titles s),
        DItem.node "author".toList [] [] [textItem "name".toList (c.authors s)],
        DItem.node "content".toList [("type".toList, "text".toList)] []
          [.text (filter_html (c.contents s))]]
        ++ links) := by
  unfold entryNode
  rw [h]
  rfl

theorem feedUpdated_makeTreeFrom (url : Str) (files : List FileEntry) :
    feedUpdated (makeTreeFrom url files) = (runCore url files).latest := by
  rw [makeTreeFrom_eq]
  rfl

theorem foldl_pmax_acc : ∀ (l : List Str) (a : Str), strLt (l.foldl pmax a) a = false := by
  intro l
  induction l with
  | nil => intro a; exact strLt_irrefl a
  | cons y l ih =>
    intro a
    rw [List.foldl_cons]
    exact strLt_false_trans (ih (pmax a y)) (strLt_pmax_left a y)

theorem foldl_pmax_upper : ∀ (l : List Str) (a x : Str), x ∈ l →
    strLt (l.foldl pmax a) x = false := by
  intro l
  induction l with
  | nil => intro a x hx; exact absurd hx (List.not_mem_nil x)
  | cons y l ih =>
    intro a x hx
    rw [List.foldl_cons]
    rcases List.mem_cons.mp hx with h | h
    · subst h
      exact strLt_false_trans (foldl_pmax_acc l (pmax a x)) (strLt_pmax_right a x)
    · exact ih (pmax a y) x h

theorem foldl_pmax_mem : ∀ (l : List Str) (a : Str),
    l.foldl pmax a = a ∨ (l.foldl pmax a) ∈ l := by
  intro l
  induction l with
  | nil => intro a; exact Or.inl rfl
  | cons y l ih =>
    intro a
    rw [List.foldl_cons]
    rcases ih (pmax a y) with h | h
    · rcases pmax_choice a y with hc | hc
      · exact Or.inl (h.trans hc)
      · exact Or.inr (by rw [h, hc]; exact List.mem_cons_self y l)
    · exact Or.inr (List.mem_cons_of_mem y h)

theorem make_tree_def (url : Str) (listing : List FileEntry) :
    make_tree url listing = makeTreeFrom url (listing.insertionSort fileLe) := rfl

theorem sorted_perm (listing : List FileEntry) :
    (listing.insertionSort fileLe).Perm listing :=
  List.perm_insertionSort fileLe listing

theorem feedUpdated_make_tree (url : Str) (listing : List FileEntry) :
    feedUpdated (make_tree url listing) =
      (((listing.insertionSort fileLe).filter keepFile).map tsOf).foldl pmax [] := by
  rw [make_tree_def, feedUpdated_makeTreeFrom, runCore_latest, List.foldl_map]

/-- C1 (counterexample): with `a.epub` modified at epoch second 100 and an
unrecognised `b.xyz` modified later at second 200, the feed-level `updated`
value is the `a.epub` timestamp, not the max over every file in the
directory — unrecognised files are skipped before `latest` is updated. -/
theorem C1_counterexample :
    feedUpdated (make_tree []
        [⟨"a.epub".toList, true, 100, 0, emptyMeta⟩,
         ⟨"b.xyz".toList, true, 200, 0, emptyMeta⟩]) = timestamp 100 0 ∧
    [timestamp 100 0, timestamp 200 0].foldl pmax [] = timestamp 200 0 ∧
    timestamp 100 0 ≠ timestamp 200 0 := by
  refine ⟨?_, ?_, ?_⟩ <;> decide

/-- C1 (amended): the feed-level `updated` value produced by `make_tree` is
the maximum rendered timestamp over the *recognised* regular files of the
listing, independent of book grouping: it is an upper bound of all their
timestamps, it is attained by one of them (or empty when there are none),
and listings with no recognised file yield the empty string. -/
theorem C1_amended (url : Str) (listing : List FileEntry) :
    (∀ f ∈ listing, keepFile f = true →
      strLt (feedUpdated (make_tree url listing)) (tsOf f) = false) ∧
    (feedUpdated (make_tree url listing) = [] ∨
      ∃ f ∈ listing, keepFile f = true ∧ feedUpdated (make_tree url listing) = tsOf f) ∧
    ((∀ f ∈ listing, keepFile f = false) → feedUpdated (make_tree url listing) = []) := by
  rw [feedUpdated_make_tree]
  have hperm : ((listing.insertionSort fileLe).filter keepFile).Perm
      (listing.filter keepFile) := (sorted_perm listing).filter keepFile
  refine ⟨?_, ?_, ?_⟩
  · intro f hf hk
    apply foldl_pmax_upper
    apply List.mem_map_of_mem tsOf
    exact (hperm.mem_iff).mpr (List.mem_filter.mpr ⟨hf, hk⟩)
  · rcases foldl_pmax_mem (((listing.insertionSort fileLe).filter keepFile).map tsOf) []
        with h | h
    · exact Or.inl h
    · rcases List.mem_map.mp h with ⟨f, hf, hts⟩
      have hf2 := (hperm.mem_iff).mp hf
      rcases List.mem_filter.mp hf2 with ⟨hmem, hk⟩
      exact Or.inr ⟨f, hmem, hk, hts.symm⟩
  · intro hall
    have : (listing.insertionSort fileLe).filter keepFile = [] := by
      rw [List.filter_eq_nil_iff]
      intro f hf
      have := hall f ((sorted_perm listing).mem_iff.mp hf)
      simp [this]
    rw [this]
    rfl

/-- C1 (witness): the amended theorem applied to the one-file listing
`a.epub`. -/
theorem C1_amended_witness :
    strLt (feedUpdated (make_tree []
        [⟨"a.epub".toList, true, 100, 0, emptyMeta⟩]))
      (tsOf ⟨"a.epub".toList, true, 100, 0, emptyMeta⟩) = false :=
  (C1_amended [] [⟨"a.epub".toList, true, 100, 0, emptyMeta⟩]).1
    ⟨"a.epub".toList, true, 100, 0, emptyMeta⟩ (by decide) (by decide)

theorem endsWith_iff {name e : Str} : endsWith name e = true ↔ e <:+ name := by
  unfold endsWith
  constructor
  · intro h
    have he : name.drop (name.length - e.length) = e := eq_of_beq h
    rw [← he]
    exact List.drop_suffix _ _
  · rintro ⟨t, ht⟩
    have hlen : name.length - e.length = t.length := by
      rw [← ht]; simp
    rw [hlen, ← ht, List.drop_left]
    exact beq_self_eq_true e

theorem FORMATS_pairwise :
    List.Pairwise (fun p q : Str × Format => endsWith q.1 p.1 = false) FORMATS := by decide

theorem FORMATS_keys_nodup : (FORMATS.map Prod.fst).Nodup := by decide

theorem assoc_unique : ∀ {L : List (Str × Format)}, (L.map Prod.fst).Nodup →
    ∀ {e : Str} {a b : Format}, (e, a) ∈ L → (e, b) ∈ L → a = b := by
  intro L
  induction L with
  | nil =>
    intro _ e a b ha _
    cases ha
  | cons p rest ih =>
    intro hnd e a b ha hb
    rw [List.map_cons, List.nodup_cons] at hnd
    rcases List.mem_cons.mp ha with ha1 | ha1 <;> rcases List.mem_cons.mp hb with hb1 | hb1
    · rw [← ha1] at hb1
      injection hb1 with _ h2
      exact h2.symm
    · exfalso
      apply hnd.1
      rw [← ha1]
      exact List.mem_map.mpr ⟨(e, b), hb1, rfl⟩
    · exfalso
      apply hnd.1
      rw [← hb1]
      exact List.mem_map.mpr ⟨(e, a), ha1, rfl⟩
    · exact ih hnd.2 ha1 hb1

theorem findFormat_spec (name : Str) :
    ∀ (L : List (Str × Format)),
      List.Pairwise (fun p q => endsWith q.1 p.1 = false) L →
      (∃ p ∈ L, endsWith name p.1 = true) →
      (findFormat L name) ∈ L ∧ endsWith name (findFormat L name).1 = true ∧
        ∀ p ∈ L, endsWith name p.1 = true → p.1.length ≤ (findFormat L name).1.length := by
  intro L
  induction L with
  | nil =>
    rintro _ ⟨p, hp, _⟩
    cases hp
  | cons q rest ih =>
    intro hpw hex
    obtain ⟨e, a⟩ := q
    rw [List.pairwise_cons] at hpw
    by_cases h : endsWith name e = true
    · have hres : findFormat ((e, a) :: rest) name = (e, a) := by
        unfold findFormat
        rw [if_pos h]
      rw [hres]
      refine ⟨List.mem_cons_self _ _, h, ?_⟩
      intro p hp hpe
      rcases List.mem_cons.mp hp with hp1 | hp1
      · rw [hp1]
      · have hnotsfx : ¬(e <:+ p.1) := by
          have := hpw.1 p hp1
          intro hs
          rw [(endsWith_iff).mpr hs] at this
          cases this
        rcases List.suffix_or_suffix_of_suffix (endsWith_iff.mp hpe) (endsWith_iff.mp h)
          with hs | hs
        · exact hs.length_le
        · exact absurd hs hnotsfx
    · have hres : findFormat ((e, a) :: rest) name = findFormat rest name := by
        show (if endsWith name e = true then (e, a) else findFormat rest name) =
          findFormat rest name
        rw [if_neg h]
      rw [hres]
      have hex2 : ∃ p ∈ rest, endsWith name p.1 = true := by
        rcases hex with ⟨p, hp, hpe⟩
        rcases List.mem_cons.mp hp with hp1 | hp1
        · rw [hp1] at hpe
          exact absurd hpe h
        · exact ⟨p, hp1, hpe⟩
      obtain ⟨hm, he, hall⟩ := ih hpw.2 hex2
      refine ⟨List.mem_cons_of_mem _ hm, he, ?_⟩
      intro p hp hpe
      rcases List.mem_cons.mp hp with hp1 | hp1
      · rw [hp1] at hpe
        exact absurd hpe h
      · exact hall p hp1 hpe

theorem findFormat_FORMATS (name : Str) :
    (findFormat FORMATS name) ∈ FORMATS ∧
      endsWith name (findFormat FORMATS name).1 = true ∧
      ∀ p ∈ FORMATS, endsWith name p.1 = true →
        p.1.length ≤ (findFormat FORMATS name).1.length := by
  refine findFormat_spec name FORMATS FORMATS_pairwise ⟨([], ⟨none, none, "unknown".toList, none⟩), ?_, ?_⟩
  · decide
  · rw [endsWith_iff]
    exact List.nil_suffix

/-- C2: classification is the most-specific-suffix match: for every
filename `stem ++ suffix` with `suffix` a registered suffix that is the
longest registered suffix of the filename, the loop yields exactly that
suffix, its descriptor and the stem; and whatever the filename, every
registered suffix of it is no longer than the matched one. -/
theorem C2_classify (name : Str) :
    (∀ (stem suffix : Str) (fmt : Format), (suffix, fmt) ∈ FORMATS → suffix ≠ [] →
      name = stem ++ suffix →
      (∀ p ∈ FORMATS, endsWith name p.1 = true → p.1.length ≤ suffix.length) →
      endingOf name = suffix ∧ fmtOf name = fmt ∧ stemName name = stem) ∧
    (∀ p ∈ FORMATS, endsWith name p.1 = true → p.1.length ≤ (endingOf name).length) := by
  obtain ⟨hmem, hends, hmax⟩ := findFormat_FORMATS name
  constructor
  · intro stem suffix fmt hsf hne hname hlongest
    have hsfx : suffix <:+ name := ⟨stem, hname.symm⟩
    have h1 : suffix.length ≤ (findFormat FORMATS name).1.length :=
      hmax (suffix, fmt) hsf (endsWith_iff.mpr hsfx)
    have h2 : (findFormat FORMATS name).1.length ≤ suffix.length :=
      hlongest _ hmem hends
    have hlen : (findFormat FORMATS name).1.length = suffix.length :=
      Nat.le_antisymm h2 h1
    have heq : (findFormat FORMATS name).1 = suffix := by
      rcases List.suffix_or_suffix_of_suffix (endsWith_iff.mp hends) hsfx with hs | hs
      · exact hs.eq_of_length hlen
      · exact (hs.eq_of_length hlen.symm).symm
    have hfmt : fmtOf name = fmt := by
      have : ((findFormat FORMATS name).1, (findFormat FORMATS name).2) ∈ FORMATS := by
        simpa using hmem
      rw [heq] at this
      exact assoc_unique FORMATS_keys_nodup this hsf
    refine ⟨heq, hfmt, ?_⟩
    unfold stemName stemOf
    rw [show endingOf name = suffix from heq, if_neg hne, hname]
    have : (stem ++ suffix).length - suffix.length = stem.length := by
      simp
    rw [this, List.take_left]
  · exact hmax

/-- C2 (witness): `book.epub` classifies as the `.epub` descriptor with
stem `book`. -/
theorem C2_classify_witness :
    endingOf "book.epub".toList = ".epub".toList ∧
      fmtOf "book.epub".toList =
        ⟨some "Compatible epub".toList,
         some ["All devices and apps except Kindles and Kobos".toList],
         "application/epub+zip".toList, some ACQUISITION⟩ ∧
      stemName "book.epub".toList = "book".toList :=
  (C2_classify "book.epub".toList).1 "book".toList ".epub".toList _
    (by decide) (by decide) (by decide) (by decide)

theorem foldl_getD_none {α : Type} (proj : FileEntry → Option α) :
    ∀ (l : List FileEntry) (v : α), (∀ g ∈ l, proj g = none) →
      l.foldl (fun acc x => (proj x).getD acc) v = v := by
  intro l
  induction l with
  | nil => intro v _; rfl
  | cons f rest ih =>
    intro v hall
    rw [List.foldl_cons, hall f (List.mem_cons_self f rest)]
    exact ih v (fun g hg => hall g (List.mem_cons_of_mem f hg))

theorem foldl_getD_last {α : Type} (proj : FileEntry → Option α)
    (l1 l2 : List FileEntry) (f : FileEntry) (d v : α) (hv : proj f = some v)
    (hnone : ∀ g ∈ l2, proj g = none) :
    (l1 ++ f :: l2).foldl (fun acc x => (proj x).getD acc) d = v := by
  rw [List.foldl_append, List.foldl_cons, hv]
  exact foldl_getD_none proj l2 v hnone

/-- C3: for every created book group, title, author and content are the
last-write-wins folds of the group's extraction results over its files in
processing order, starting from the defaults (stem, `"Unknown"`, empty);
and whenever the group decomposes as `l1 ++ f :: l2` with `f` carrying a
field and every later file lacking it, the final value of that field is
`f`'s value. -/
theorem C3_metadata_merge (url : Str) (files : List FileEntry) (s : Str)
    (h : stemFiles s files ≠ []) :
    ((runCore url files).titles s =
      (stemFiles s files).foldl (fun acc f => ((metaFor f).mtitle).getD acc) s) ∧
    ((runCore url files).authors s =
      (stemFiles s files).foldl (fun acc f => ((metaFor f).mauthor).getD acc)
        ("Unknown".toList)) ∧
    ((runCore url files).contents s =
      (stemFiles s files).foldl (fun acc f => ((metaFor f).mcontent).getD acc) []) ∧
    (∀ (l1 l2 : List FileEntry) (f : FileEntry) (v : Str),
      stemFiles s files = l1 ++ f :: l2 → (metaFor f).mtitle = some v →
      (∀ g ∈ l2, (metaFor g).mtitle = none) → (runCore url files).titles s = v) ∧
    (∀ (l1 l2 : List FileEntry) (f : FileEntry) (v : Str),
      stemFiles s files = l1 ++ f :: l2 → (metaFor f).mauthor = some v →
      (∀ g ∈ l2, (metaFor g).mauthor = none) → (runCore url files).authors s = v) ∧
    (∀ (l1 l2 : List FileEntry) (f : FileEntry) (v : Str),
      stemFiles s files = l1 ++ f :: l2 → (metaFor f).mcontent = some v →
      (∀ g ∈ l2, (metaFor g).mcontent = none) → (runCore url files).contents s = v) := by
  refine ⟨?_, ?_, ?_, ?_, ?_, ?_⟩
  · rw [runCore_titles, if_neg h]
  · rw [runCore_authors, if_neg h]
  · rw [runCore_contents, if_neg h]
  · intro l1 l2 f v hdec hv hnone
    rw [runCore_titles, if_neg h, hdec]
    exact foldl_getD_last (fun f => (metaFor f).mtitle) l1 l2 f _ v hv hnone
  · intro l1 l2 f v hdec hv hnone
    rw [runCore_authors, if_neg h, hdec]
    exact foldl_getD_last (fun f => (metaFor f).mauthor) l1 l2 f _ v hv hnone
  · intro l1 l2 f v hdec hv hnone
    rw [runCore_contents, if_neg h, hdec]
    exact foldl_getD_last (fun f => (metaFor f).mcontent) l1 l2 f _ v hv hnone

/-- C3 (witness): two files for stem `b` where only the first yields a
title — the merged title is that title, confirmed at a concrete input. -/
theorem C3_metadata_merge_witness :
    (runCore []
      [⟨"b.epub".toList, true, 50, 0, ⟨some "Foo".toList, none, none⟩⟩,
       ⟨"b.pdf".toList, true, 60, 0, emptyMeta⟩]).titles "b".toList = "Foo".toList := by
  have h := (C3_metadata_merge []
    [⟨"b.epub".toList, true, 50, 0, ⟨some "Foo".toList, none, none⟩⟩,
     ⟨"b.pdf".toList, true, 60, 0, emptyMeta⟩] "b".toList (by decide)).2.2.2.1
  rw [h [] [⟨"b.pdf".toList, true, 60, 0, emptyMeta⟩]
    ⟨"b.epub".toList, true, 50, 0, ⟨some "Foo".toList, none, none⟩⟩ "Foo".toList
    (by decide) (by decide) (by decide)]

/-- C4 (counterexample): in the group `b`, file `b.epub` is modified half a
second after `b.pdf` (mtimes 100.5s and 100s), so the chronologically
latest file of the group is `b.epub`; yet the group's `updated` — a string
max over rendered ISO-8601 timestamps, where `'Z' > '.'` — is the `b.pdf`
timestamp, not the timestamp of the latest file. -/
theorem C4_counterexample :
    (runCore []
        [⟨"b.epub".toList, true, 100, 500000, emptyMeta⟩,
         ⟨"b.pdf".toList, true, 100, 0, emptyMeta⟩]).updated "b".toList
      = timestamp 100 0 ∧
    (∀ f ∈ stemFiles "b".toList
        [⟨"b.epub".toList, true, 100, 500000, emptyMeta⟩,
         ⟨"b.pdf".toList, true, 100, 0, emptyMeta⟩],
      f.sec * 1000000 + f.usec ≤ 100 * 1000000 + 500000) ∧
    tsOf ⟨"b.epub".toList, true, 100, 500000, emptyMeta⟩ = timestamp 100 500000 ∧
    timestamp 100 0 ≠ timestamp 100 500000 := by
  refine ⟨?_, ?_, ?_, ?_⟩ <;> decide

theorem foldl_max_sec_ub : ∀ (l : List FileEntry) (m : Nat),
    m ≤ l.foldl (fun a f => Nat.max a f.sec) m ∧
      ∀ f ∈ l, f.sec ≤ l.foldl (fun a f => Nat.max a f.sec) m := by
  intro l
  induction l with
  | nil => intro m; exact ⟨Nat.le_refl m, fun f hf => absurd hf (List.not_mem_nil f)⟩
  | cons f rest ih =>
    intro m
    rw [List.foldl_cons]
    obtain ⟨h1, h2⟩ := ih (Nat.max m f.sec)
    refine ⟨Nat.le_trans (Nat.le_max_left m f.sec) h1, ?_⟩
    intro g hg
    rcases List.mem_cons.mp hg with h | h
    · rw [h]
      exact Nat.le_trans (Nat.le_max_right m f.sec) h1
    · exact h2 g h

theorem foldl_max_sec_mem : ∀ (l : List FileEntry) (m : Nat),
    l.foldl (fun a f => Nat.max a f.sec) m = m ∨
      ∃ f ∈ l, l.foldl (fun a f => Nat.max a f.sec) m = f.sec := by
  intro l
  induction l with
  | nil => intro m; exact Or.inl rfl
  | cons f rest ih =>
    intro m
    rw [List.foldl_cons]
    rcases ih (Nat.max m f.sec) with h | ⟨g, hg, hge⟩
    · rcases Nat.le_total m f.sec with hle | hle
      · refine Or.inr ⟨f, List.mem_cons_self f rest, ?_⟩
        rw [h]
        exact Nat.max_eq_right hle
      · refine Or.inl ?_
        rw [h]
        exact Nat.max_eq_left hle
    · exact Or.inr ⟨g, List.mem_cons_of_mem f hg, hge⟩

theorem foldl_max_sec_cap : ∀ (l : List FileEntry) (m : Nat), m < SEC_CAP →
    (∀ f ∈ l, f.sec < SEC_CAP) → l.foldl (fun a f => Nat.max a f.sec) m < SEC_CAP := by
  intro l
  induction l with
  | nil => intro m hm _; exact hm
  | cons f rest ih =>
    intro m hm hall
    rw [List.foldl_cons]
    have hf := hall f (List.mem_cons_self f rest)
    exact ih (Nat.max m f.sec) (Nat.max_lt.mpr ⟨hm, hf⟩)
      (fun g hg => hall g (List.mem_cons_of_mem f hg))

theorem foldl_pmax_timestamp : ∀ (l : List FileEntry) (m : Nat), m < SEC_CAP →
    (∀ f ∈ l, f.usec = 0 ∧ f.sec < SEC_CAP) →
    l.foldl (fun a f => pmax a (tsOf f)) (timestamp m 0) =
      timestamp (l.foldl (fun a f => Nat.max a f.sec) m) 0 := by
  intro l
  induction l with
  | nil => intro m _ _; rfl
  | cons f rest ih =>
    intro m hm hall
    obtain ⟨hz, hcap⟩ := hall f (List.mem_cons_self f rest)
    rw [List.foldl_cons, List.foldl_cons]
    have hts : tsOf f = timestamp f.sec 0 := by rw [tsOf, hz]
    rw [hts, pmax_timestamp hm hcap]
    exact ih (Nat.max m f.sec) (Nat.max_lt.mpr ⟨hm, hcap⟩)
      (fun g hg => hall g (List.mem_cons_of_mem f hg))

/-- C4 (amended): for a group whose files all have whole-second mtimes (zero
microseconds, within the rendered range), the group's `updated` — though
computed as a string max over rendered ISO-8601 timestamps — equals the
rendered timestamp of a chronologically latest-modified file of the group;
with fractional-second mtimes the string max can disagree (see the
counterexample). -/
theorem C4_amended (url : Str) (files : List FileEntry) (s : Str)
    (hne : stemFiles s files ≠ [])
    (hws : ∀ f ∈ stemFiles s files, f.usec = 0 ∧ f.sec < SEC_CAP) :
    ∃ g ∈ stemFiles s files,
      (runCore url files).updated s = tsOf g ∧
      ∀ f ∈ stemFiles s files, f.sec ≤ g.sec := by
  rw [runCore_updated, if_neg hne]
  rcases hl : stemFiles s files with _ | ⟨f, rest⟩
  · exact absurd hl hne
  · have hall : ∀ g ∈ f :: rest, g.usec = 0 ∧ g.sec < SEC_CAP := by
      rw [← hl]; exact hws
    obtain ⟨hz, hcap⟩ := hall f (List.mem_cons_self f rest)
    have hts : tsOf f = timestamp f.sec 0 := by rw [tsOf, hz]
    rw [List.foldl_cons, pmax_nil, hts,
      foldl_pmax_timestamp rest f.sec hcap
        (fun g hg => hall g (List.mem_cons_of_mem f hg))]
    obtain ⟨hub1, hub2⟩ := foldl_max_sec_ub rest f.sec
    rcases foldl_max_sec_mem rest f.sec with hmem | ⟨g, hg, hge⟩
    · refine ⟨f, List.mem_cons_self f rest, ?_, ?_⟩
      · rw [hts, hmem]
      · intro x hx
        rcases List.mem_cons.mp hx with h | h
        · rw [h]
        · have := hub2 x h
          rw [hmem] at this
          exact this
    · refine ⟨g, List.mem_cons_of_mem f hg, ?_, ?_⟩
      · have hgz : g.usec = 0 := (hall g (List.mem_cons_of_mem f hg)).1
        rw [tsOf, hgz, hge]
      · intro x hx
        rcases List.mem_cons.mp hx with h | h
        · rw [h, ← hge]
          exact hub1
        · rw [← hge]
          exact hub2 x h

/-- C4 (witness): the amended theorem at a concrete two-file group with
whole-second mtimes 100 and 200. -/
theorem C4_amended_witness :
    ∃ g ∈ stemFiles "b".toList
        [⟨"b.epub".toList, true, 100, 0, emptyMeta⟩,
         ⟨"b.pdf".toList, true, 200, 0, emptyMeta⟩],
      (runCore []
        [⟨"b.epub".toList, true, 100, 0, emptyMeta⟩,
         ⟨"b.pdf".toList, true, 200, 0, emptyMeta⟩]).updated "b".toList = tsOf g ∧
      ∀ f ∈ stemFiles "b".toList
        [⟨"b.epub".toList, true, 100, 0, emptyMeta⟩,
         ⟨"b.pdf".toList, true, 200, 0, emptyMeta⟩], f.sec ≤ g.sec :=
  C4_amended [] _ "b".toList (by decide) (by decide)

/-- C5: permuting the input within a stem leaves the group's
timestamp-max unchanged and permutes its link-node list (same multiset),
but links sit in an entry in exact processing order and entries appear in
first-seen order of their stems — and there are permuted listings whose
output trees differ. -/
theorem C5_order (files1 files2 : List FileEntry) (hp : files1.Perm files2)
    (url : Str) (s : Str) :
    ((runCore url files1).updated s = (runCore url files2).updated s) ∧
    (((stemFiles s files1).map (fun f => linkNode url f.name (fmtOf f.name))).Perm
      ((stemFiles s files2).map (fun f => linkNode url f.name (fmtOf f.name)))) ∧
    (stemFiles s files1 ≠ [] →
      (runCore url files1).entries s =
        textItem "id".toList (url ++ quote s) ::
          (stemFiles s files1).map (fun f => linkNode url f.name (fmtOf f.name))) ∧
    ((runCore url files1).stems =
      ((files1.filter keepFile).map (fun f => stemName f.name)).foldl addStem []) ∧
    (∃ l1 l2 : List FileEntry, l1.Perm l2 ∧ makeTreeFrom [] l1 ≠ makeTreeFrom [] l2) := by
  have hpf : (stemFiles s files1).Perm (stemFiles s files2) := hp.filter _
  refine ⟨?_, hpf.map _, runCore_entries_links url files1 s, runCore_stems url files1, ?_⟩
  · rw [runCore_updated, runCore_updated]
    by_cases h1 : stemFiles s files1 = []
    · have h2 : stemFiles s files2 = [] := by
        have hperm2 := hpf.symm
        rw [h1] at hperm2
        exact hperm2.eq_nil
      rw [if_pos h1, if_pos h2]
    · have h2 : stemFiles s files2 ≠ [] := by
        intro h2
        apply h1
        have hperm2 := hpf
        rw [h2] at hperm2
        exact hperm2.eq_nil
      rw [if_neg h1, if_neg h2]
      haveI : RightCommutative (fun (a : Str) (f : FileEntry) => pmax a (tsOf f)) :=
        ⟨fun b a1 a2 => by
          show pmax (pmax b (tsOf a1)) (tsOf a2) = pmax (pmax b (tsOf a2)) (tsOf a1)
          rw [pmax_assoc, pmax_assoc, pmax_comm (tsOf a1) (tsOf a2)]⟩
      exact hpf.foldl_eq []
  · refine ⟨[⟨"a.epub".toList, true, 100, 0, emptyMeta⟩,
             ⟨"b.epub".toList, true, 100, 0, emptyMeta⟩],
            [⟨"b.epub".toList, true, 100, 0, emptyMeta⟩,
             ⟨"a.epub".toList, true, 100, 0, emptyMeta⟩],
            List.Perm.swap _ _ [], ?_⟩
    intro h
    exact absurd (congrArg entryIds h) (by decide)

/-- C5 (witness): the links-in-processing-order part applied to a
singleton listing. -/
theorem C5_order_witness :
    (runCore [] [⟨"b.epub".toList, true, 100, 0, emptyMeta⟩]).entries "b".toList =
      textItem "id".toList ([] ++ quote "b".toList) ::
        (stemFiles "b".toList [⟨"b.epub".toList, true, 100, 0, emptyMeta⟩]).map
          (fun f => linkNode [] f.name (fmtOf f.name)) :=
  (C5_order [⟨"b.epub".toList, true, 100, 0, emptyMeta⟩]
    [⟨"b.epub".toList, true, 100, 0, emptyMeta⟩] (List.Perm.refl _) [] "b".toList).2.2.1
    (by decide)

/-- C6: in the final tree, each book entry's children are exactly, in
order: identifier, updated timestamp, title, author (with nested name),
HTML-filtered content, then every accumulated link node in processing
order — for any number of links; and the feed root carries the entry
nodes after its five fixed metadata children. -/
theorem C6_entry_children (url : Str) (files : List FileEntry) (s : Str)
    (h : stemFiles s files ≠ []) :
    entryNode (runCore url files) s =
      DItem.node "entry".toList [] []
        ([textItem "id".toList (url ++ quote s),
          textItem "updated".toList ((runCore url files).updated s),
          textItem "title".toList ((runCore url files).titles s),
          DItem.node "author".toList [] []
            [textItem "name".toList ((runCore url files).authors s)],
          DItem.node "content".toList [("type".toList, "text".toList)] []
            [.text (filter_html ((runCore url files).contents s))]]
          ++ (stemFiles s files).map (fun f => linkNode url f.name (fmtOf f.name))) ∧
    makeTreeFrom url files =
      DItem.node "feed".toList [] feedNsmap
        ([ textItem "title".toList "Michael Young\x27s ebooks".toList,
           textItem "id".toList (url ++ FEED_FILENAME),
           textItem "updated".toList (runCore url files).latest,
           DItem.node "author".toList [] [] [textItem "name".toList "Michael Young".toList],
           DItem.node "link".toList
             [("rel".toList, "self".toList),
              ("type".toList, "application/atom+xml".toList),
              ("href".toList, url)] [] [] ]
          ++ (runCore url files).stems.map (entryNode (runCore url files))) :=
  ⟨entryNode_children _ s _ _ (runCore_entries_links url files s h),
   makeTreeFrom_eq url files⟩

/-- C6 (witness): the entry layout at a concrete one-file listing. -/
theorem C6_entry_children_witness :
    entryNode (runCore [] [⟨"b.epub".toList, true, 100, 0, emptyMeta⟩]) "b".toList =
      DItem.node "entry".toList [] []
        ([textItem "id".toList ([] ++ quote "b".toList),
          textItem "updated".toList
            ((runCore [] [⟨"b.epub".toList, true, 100, 0, emptyMeta⟩]).updated "b".toList),
          textItem "title".toList
            ((runCore [] [⟨"b.epub".toList, true, 100, 0, emptyMeta⟩]).titles "b".toList),
          DItem.node "author".toList [] []
            [textItem "name".toList
              ((runCore [] [⟨"b.epub".toList, true, 100, 0, emptyMeta⟩]).authors "b".toList)],
          DItem.node "content".toList [("type".toList, "text".toList)] []
            [.text (filter_html
              ((runCore [] [⟨"b.epub".toList, true, 100, 0, emptyMeta⟩]).contents "b".toList))]]
          ++ (stemFiles "b".toList [⟨"b.epub".toList, true, 100, 0, emptyMeta⟩]).map
              (fun f => linkNode [] f.name (fmtOf f.name))) :=
  (C6_entry_children [] [⟨"b.epub".toList, true, 100, 0, emptyMeta⟩] "b".toList (by decide)).1

theorem mixOkList_iff : ∀ (l : List DItem), mixOkList l = true ↔ ∀ x ∈ l, mixOk x = true := by
  intro l
  induction l with
  | nil => simp [mixOkList]
  | cons c cs ih =>
    rw [mixOkList, Bool.and_eq_true, ih]
    constructor
    · rintro ⟨h1, h2⟩ x hx
      rcases List.mem_cons.mp hx with h | h
      · rw [h]; exact h1
      · exact h2 x h
    · intro h
      exact ⟨h c (List.mem_cons_self c cs), fun x hx => h x (List.mem_cons_of_mem c hx)⟩

theorem mixOk_textItem (n t : Str) : mixOk (textItem n t) = true := rfl

theorem mixOk_linkNode (url name : Str) (fmt : Format) :
    mixOk (linkNode url name fmt) = true := by
  unfold linkNode mixOk
  rw [Bool.and_eq_true]
  constructor
  · unfold homog
    rw [Bool.or_eq_true]
    left
    rw [List.all_eq_true]
    intro x hx
    rcases List.mem_map.mp hx with ⟨s, _, hs⟩
    rw [← hs]
    rfl
  · rw [mixOkList_iff]
    intro x hx
    rcases List.mem_map.mp hx with ⟨s, _, hs⟩
    rw [← hs]
    rfl

theorem mixOk_entryNode (url : Str) (files : List FileEntry) (s : Str)
    (h : stemFiles s files ≠ []) :
    mixOk (entryNode (runCore url files) s) = true := by
  rw [entryNode_children _ s _ _ (runCore_entries_links url files s h)]
  rw [mixOk, Bool.and_eq_true]
  constructor
  · unfold homog
    rw [Bool.or_eq_true]
    right
    rw [List.all_eq_true]
    intro x hx
    rcases List.mem_append.mp hx with hx | hx
    · simp only [List.mem_cons, List.mem_singleton] at hx
      rcases hx with h | h | h | h | h | h
      all_goals first
        | (rw [h]; rfl)
        | cases h
    · rcases List.mem_map.mp hx with ⟨f, _, hf⟩
      rw [← hf]
      rfl
  · rw [mixOkList_iff]
    intro x hx
    rcases List.mem_append.mp hx with hx | hx
    · simp only [List.mem_cons, List.mem_singleton] at hx
      rcases hx with h | h | h | h | h | h
      all_goals first
        | (rw [h]; rfl)
        | cases h
    · rcases List.mem_map.mp hx with ⟨f, _, hf⟩
      rw [← hf]
      exact mixOk_linkNode url f.name (fmtOf f.name)

theorem mixOk_makeTreeFrom (url : Str) (files : List FileEntry) :
    mixOk (makeTreeFrom url files) = true := by
  rw [makeTreeFrom_eq, mixOk, Bool.and_eq_true]
  constructor
  · unfold homog
    rw [Bool.or_eq_true]
    right
    rw [List.all_eq_true]
    intro x hx
    rcases List.mem_append.mp hx with hx | hx
    · simp only [List.mem_cons, List.mem_singleton] at hx
      rcases hx with h | h | h | h | h | h
      all_goals first
        | (rw [h]; rfl)
        | cases h
    · rcases List.mem_map.mp hx with ⟨s, _, hs⟩
      rw [← hs]
      rfl
  · rw [mixOkList_iff]
    intro x hx
    rcases List.mem_append.mp hx with hx | hx
    · simp only [List.mem_cons, List.mem_singleton] at hx
      rcases hx with h | h | h | h | h | h
      all_goals first
        | (rw [h]; rfl)
        | cases h
    · rcases List.mem_map.mp hx with ⟨s, hsm, hs⟩
      rw [← hs]
      exact mixOk_entryNode url files s ((mem_runCore_stems url files s).mp hsm)

/-- C7: every node of the document tree returned by `make_tree` satisfies
the mutual-exclusion invariant — a node's children are either all literal
text or all element nodes, never a mix, recursively through the tree. -/
theorem C7_mix_free (url : Str) (listing : List FileEntry) :
    mixOk (make_tree url listing) = true := by
  rw [make_tree_def]
  exact mixOk_makeTreeFrom url (listing.insertionSort fileLe)

/-- C8: the description filter maps `"Hello <b>world</b>"` to
`"Hello world"`, and any string containing neither `<` nor the `&lt;`
entity passes through unchanged. -/
theorem C8_filter_html :
    filter_html ("Hello <b>world</b>".toList) = "Hello world".toList ∧
    ∀ s : Str, s.contains '<' = false → containsSub s ("&lt;".toList) = false →
      filter_html s = s := by
  constructor
  · decide
  · intro s h1 h2
    unfold filter_html
    rw [h1, h2]
    rfl

/-- C8 (witness): the pass-through case at `"Hello world"`. -/
theorem C8_filter_html_witness :
    filter_html ("Hello world".toList) = "Hello world".toList :=
  C8_filter_html.2 ("Hello world".toList) (by decide) (by decide)

theorem runCore_filter (url : Str) (files : List FileEntry) :
    runCore url files = runCore url (files.filter keepFile) := by
  unfold runCore
  suffices h : ∀ (l : List FileEntry) (st : Core),
      l.foldl (coreStep url) st = (l.filter keepFile).foldl (coreStep url) st from
    h files initCore
  intro l
  induction l with
  | nil => intro st; rfl
  | cons f rest ih =>
    intro st
    rw [List.filter_cons]
    cases h : keepFile f
    · rw [if_neg (by simp [h]), List.foldl_cons, coreStep_keep_false h]
      exact ih st
    · rw [if_pos (by simp [h]), List.foldl_cons, List.foldl_cons]
      exact ih (coreStep url st f)

/-- C9: an unrecognised file is non-fatal and invisible to grouping: the
output tree over any listing equals the tree over the listing restricted
to recognised regular files, while each unrecognised regular file
contributes exactly one diagnostic; concretely, `book.xyz` next to
`book.epub` leaves the tree identical to the epub-only tree, produces the
one diagnostic, and joins no group. -/
theorem C9_unrecognized (url : Str) (files : List FileEntry) :
    (makeTreeFrom url files = makeTreeFrom url (files.filter keepFile)) ∧
    ((runState url files).diags =
      (files.filter (fun f => f.isFile && (endingOf f.name == []))).map
        (fun f => unknownMsg f.name)) ∧
    (make_tree [] [⟨"book.epub".toList, true, 100, 0, emptyMeta⟩,
                   ⟨"book.xyz".toList, true, 200, 0, emptyMeta⟩] =
      make_tree [] [⟨"book.epub".toList, true, 100, 0, emptyMeta⟩]) ∧
    ((runState [] ([⟨"book.epub".toList, true, 100, 0, emptyMeta⟩,
                    ⟨"book.xyz".toList, true, 200, 0, emptyMeta⟩].insertionSort
        fileLe)).diags = [unknownMsg "book.xyz".toList]) ∧
    (stemFiles "book".toList
        [⟨"book.epub".toList, true, 100, 0, emptyMeta⟩,
         ⟨"book.xyz".toList, true, 200, 0, emptyMeta⟩] =
      [⟨"book.epub".toList, true, 100, 0, emptyMeta⟩]) := by
  refine ⟨?_, runState_diags url files, ?_, ?_, ?_⟩
  · rw [makeTreeFrom_eq, makeTreeFrom_eq, runCore_filter]
  · rfl
  · rfl
  · decide

theorem classify_self (suffix : Str) (fmt : Format) (hmem : (suffix, fmt) ∈ FORMATS) :
    endingOf suffix = suffix ∧ fmtOf suffix = fmt := by
  obtain ⟨hm, hends, hmax⟩ := findFormat_FORMATS suffix
  have h1 : suffix.length ≤ (findFormat FORMATS suffix).1.length :=
    hmax (suffix, fmt) hmem (endsWith_iff.mpr (List.suffix_refl suffix))
  have h2 : (findFormat FORMATS suffix).1 <:+ suffix := endsWith_iff.mp hends
  have heq : (findFormat FORMATS suffix).1 = suffix :=
    h2.eq_of_length (Nat.le_antisymm h2.length_le h1)
  refine ⟨heq, ?_⟩
  have hmm : ((findFormat FORMATS suffix).1, (findFormat FORMATS suffix).2) ∈ FORMATS := by
    simpa using hm
  rw [heq] at hmm
  exact assoc_unique FORMATS_keys_nodup hmm hmem

theorem stemName_self (suffix : Str) (fmt : Format) (hmem : (suffix, fmt) ∈ FORMATS) :
    stemName suffix = [] := by
  unfold stemName stemOf
  rw [(classify_self suffix fmt hmem).1]
  split
  · rfl
  · simp

theorem metaFor_empty (name : Str) (isf : Bool) (sec usec : Nat) :
    metaFor ⟨name, isf, sec, usec, emptyMeta⟩ = emptyMeta := by
  unfold metaFor
  split <;> rfl

/-- C10: a regular file whose entire name is a registered suffix is not
skipped: it founds the book group keyed by the empty stem, with its own
entry (id `url`), its own link, its own timestamp as the group max, and
default metadata (title = the empty stem, author `"Unknown"`, empty
content); and a further recognised file with a non-empty stem lands in a
distinct second group. -/
theorem C10_empty_stem (suffix : Str) (fmt : Format) (url : Str) (sec usec : Nat)
    (hmem : (suffix, fmt) ∈ FORMATS) (hne : suffix ≠ []) :
    keepFile ⟨suffix, true, sec, usec, emptyMeta⟩ = true ∧
    stemName suffix = [] ∧
    (runCore url [⟨suffix, true, sec, usec, emptyMeta⟩]).stems = [[]] ∧
    (runCore url [⟨suffix, true, sec, usec, emptyMeta⟩]).entries [] =
      [textItem "id".toList (url ++ quote []),
       linkNode url suffix (fmtOf suffix)] ∧
    (runCore url [⟨suffix, true, sec, usec, emptyMeta⟩]).updated [] =
      timestamp sec usec ∧
    (runCore url [⟨suffix, true, sec, usec, emptyMeta⟩]).titles [] = [] ∧
    (runCore url [⟨suffix, true, sec, usec, emptyMeta⟩]).authors [] = "Unknown".toList ∧
    (runCore url [⟨suffix, true, sec, usec, emptyMeta⟩]).contents [] = [] ∧
    (∀ g : FileEntry, keepFile g = true → stemName g.name ≠ [] →
      (runCore url [⟨suffix, true, sec, usec, emptyMeta⟩, g]).stems =
        [[], stemName g.name]) := by
  have hkeep : keepFile ⟨suffix, true, sec, usec, emptyMeta⟩ = true := by
    unfold keepFile
    rw [(by rfl : FileEntry.name ⟨suffix, true, sec, usec, emptyMeta⟩ = suffix)]
    rw [(classify_self suffix fmt hmem).1]
    simp [hne]
  have hstem : stemName suffix = [] := stemName_self suffix fmt hmem
  have hsf : stemFiles [] [(⟨suffix, true, sec, usec, emptyMeta⟩ : FileEntry)] =
      [⟨suffix, true, sec, usec, emptyMeta⟩] := by
    unfold stemFiles
    rw [List.filter_cons]
    rw [if_pos (by simp [hkeep, hstem])]
    rfl
  have hsfne : stemFiles [] [(⟨suffix, true, sec, usec, emptyMeta⟩ : FileEntry)] ≠ [] := by
    rw [hsf]
    simp
  refine ⟨hkeep, hstem, ?_, ?_, ?_, ?_, ?_, ?_, ?_⟩
  · rw [runCore_stems]
    rw [List.filter_cons, if_pos (by simp [hkeep])]
    simp [addStem, hstem]
  · rw [runCore_entries_links url _ _ hsfne, hsf]
    rfl
  · rw [runCore_updated, if_neg hsfne, hsf]
    rw [List.foldl_cons]
    exact pmax_nil _
  · rw [runCore_titles, if_neg hsfne, hsf]
    rw [List.foldl_cons, metaFor_empty]
    rfl
  · rw [runCore_authors, if_neg hsfne, hsf]
    rw [List.foldl_cons, metaFor_empty]
    rfl
  · rw [runCore_contents, if_neg hsfne, hsf]
    rw [List.foldl_cons, metaFor_empty]
    rfl
  · intro g hkg hsg
    rw [runCore_stems]
    rw [List.filter_cons, if_pos (by simp [hkeep]), List.filter_cons,
      if_pos (by simp [hkg])]
    simp only [List.filter_nil, List.map_cons, List.map_nil, List.foldl_cons,
      List.foldl_nil]
    rw [hstem]
    simp [addStem, hsg]

/-- C10 (witness): the file named exactly `.epub` founds the empty-stem
group, at concrete mtime 0. -/
theorem C10_empty_stem_witness :
    (runCore [] [⟨".epub".toList, true, 0, 0, emptyMeta⟩]).stems = [[]] ∧
    (runCore [] [⟨".epub".toList, true, 0, 0, emptyMeta⟩]).titles [] = [] :=
  ⟨(C10_empty_stem ".epub".toList
      ⟨some "Compatible epub".toList,
       some ["All devices and apps except Kindles and Kobos".toList],
       "application/epub+zip".toList, some ACQUISITION⟩ [] 0 0
      (by decide) (by decide)).2.2.1,
   (C10_empty_stem ".epub".toList
      ⟨some "Compatible epub".toList,
       some ["All devices and apps except Kindles and Kobos".toList],
       "application/epub+zip".toList, some ACQUISITION⟩ [] 0 0
      (by decide) (by decide)).2.2.2.2.2.1⟩
